import Mathlib

/-!
Verification of the document-segmentation engine and text-normalization
pipeline of the novel-publication backend.  Python strings are embedded as
`List Char`; each service function is translated operationally, including the
scanning behaviour of the regular expressions it uses (greedy repetition,
backtracking where it can fire, MULTILINE anchors).
-/

set_option maxRecDepth 10000

namespace NovelPub

/-- Strings of the Python services, embedded as lists of unicode scalars. -/
abbrev Str := List Char

/-- Whitespace as recognised by Python's str.strip and by the regex class \s
on str patterns: ASCII whitespace, the C1 separators, and the Unicode
space separators (including U+3000, the full-width space). -/
def pyIsSpace (c : Char) : Bool :=
  c == ' ' || c == '\t' || c == '\n' || c == '\r' ||
  c.toNat == 0x0B || c.toNat == 0x0C ||
  (0x1C ≤ c.toNat && c.toNat ≤ 0x1F) || c.toNat == 0x85 || c.toNat == 0xA0 ||
  c.toNat == 0x1680 || (0x2000 ≤ c.toNat && c.toNat ≤ 0x200A) ||
  c.toNat == 0x2028 || c.toNat == 0x2029 || c.toNat == 0x202F ||
  c.toNat == 0x205F || c.toNat == 0x3000

/-- Python str.split applied with a single newline separator. -/
def splitOnNL : Str → List Str
  | [] => [[]]
  | c :: cs =>
    if c == '\n' then [] :: splitOnNL cs
    else
      match splitOnNL cs with
      | [] => [[c]]
      | t :: ts => (c :: t) :: ts

/-- Python join with a single newline separator. -/
def joinNL : List Str → Str
  | [] => []
  | [l] => l
  | l :: l2 :: ls => l ++ '\n' :: joinNL (l2 :: ls)

/-- Helper for Python str.strip: removal of trailing whitespace. -/
def pyStripRight : Str → Str
  | [] => []
  | c :: cs =>
    match pyStripRight cs with
    | [] => if pyIsSpace c then [] else [c]
    | r => c :: r

/-- Python str.strip with no argument: whitespace removed from both ends. -/
def pyStrip (s : Str) : Str := pyStripRight (s.dropWhile pyIsSpace)

/-! ## Document segmentation engine (services/parser.py) -/

/-- Matching of the chapter-boundary pattern of NovelParser.extract_chapters
against one newline-free line, returning the captured title.  The pattern is
anchored at the first character; it asks for two heading markers, a nonempty
whitespace run, and a nonempty captured remainder, where on an all-whitespace
remainder of length at least two the greedy whitespace run backtracks by one
character so that the capture holds exactly the final whitespace character. -/
def chapterMatch (line : Str) : Option Str :=
  match line with
  | '#' :: '#' :: rest =>
    if (rest.takeWhile pyIsSpace).isEmpty then none
    else if (rest.dropWhile pyIsSpace).isEmpty then
      if 2 ≤ rest.length then some [rest.getLastD ' '] else none
    else some (rest.dropWhile pyIsSpace)
  | _ => none

/-- Chapter record as produced by NovelParser.extract_chapters. -/
structure ChapterRaw where
  chapterTitle : Str
  content : Str
deriving Repr, DecidableEq

/-- Finalization of an accumulated chapter: the buffered lines (accumulated in
reverse) are joined with newlines and stripped. -/
def finalizeChapter (t : Str) (acc : List Str) : ChapterRaw :=
  { chapterTitle := t, content := pyStrip (joinNL acc.reverse) }

/-- Line-scanning loop of NovelParser.extract_chapters.  The current title is
None before the first boundary; a buffered line is kept only while the current
title is truthy, matching the Python conditionals. -/
def extractChaptersGo : List Str → Option Str → List Str → List ChapterRaw
  | [], cur, acc =>
    match cur with
    | some t => if t.isEmpty then [] else [finalizeChapter t acc]
    | none => []
  | line :: rest, cur, acc =>
    match chapterMatch line with
    | some t =>
      match cur with
      | some t0 =>
        if t0.isEmpty then extractChaptersGo rest (some t) []
        else finalizeChapter t0 acc :: extractChaptersGo rest (some t) []
      | none => extractChaptersGo rest (some t) []
    | none =>
      match cur with
      | some t0 =>
        if t0.isEmpty then extractChaptersGo rest cur acc
        else extractChaptersGo rest cur (line :: acc)
      | none => extractChaptersGo rest cur acc

/-- NovelParser.extract_chapters. -/
def extract_chapters (content : Str) : List ChapterRaw :=
  extractChaptersGo (splitOnNL content) none []

/-- Chapter record with the 1-based sequence number attached by the parse
route. -/
structure Chapter where
  chapterTitle : Str
  content : Str
  seq : Nat
deriving Repr, DecidableEq

/-- Enumeration loop of routers/novel.py line 89: each raw chapter receives
seq = index + 1 in list order. -/
def buildChapterListGo (i : Nat) : List ChapterRaw → List Chapter
  | [] => []
  | ch :: rest =>
    { chapterTitle := ch.chapterTitle, content := ch.content, seq := i + 1 } ::
      buildChapterListGo (i + 1) rest

/-- Chapter list with sequence numbers, as built by the parse route. -/
def buildChapterList (chs : List ChapterRaw) : List Chapter :=
  buildChapterListGo 0 chs

/-- Application of the substitution removing a leading hash run and the
following whitespace run, as used on a stripped candidate line by
NovelParser.extract_title. -/
def hashSub (s : Str) : Str :=
  if s.take 1 = ['#'] then (s.dropWhile (· == '#')).dropWhile pyIsSpace else s

/-- Decision used by the extract_title scanning loop: the stripped line starts
with one heading marker, not two, and keeps a nonempty title once the leading
marker run and whitespace are removed. -/
def level1Heading (l : Str) : Bool :=
  let s := pyStrip l
  s.take 1 == ['#'] && s.take 2 != ['#', '#'] && !(pyStrip (hashSub s)).isEmpty

/-- First-candidate search of NovelParser.extract_title. -/
def findTitle : List Str → Option Str
  | [] => none
  | l :: ls =>
    let s := pyStrip l
    if s.take 1 = ['#'] ∧ ¬ s.take 2 = ['#', '#'] then
      let t := pyStrip (hashSub s)
      if t.isEmpty then findTitle ls else some t
    else findTitle ls

/-- Placeholder title returned by extract_title on degenerate input. -/
def titlePlaceholder : Str := ("未命名作品").toList

/-- NovelParser.extract_title: first level-1 heading, then the legacy
third-line fallback, then the fixed placeholder. -/
def extract_title (content : Str) : Str :=
  let lines := splitOnNL content
  match findTitle lines with
  | some t => t
  | none =>
    if 3 ≤ lines.length then
      let t := pyStrip ((pyStrip (lines.getD 2 [])).filter (· != '#'))
      if t.isEmpty then titlePlaceholder else t
    else titlePlaceholder

/-- Backtick character, written by code point. -/
def tickChar : Char := Char.ofNat 0x60

/-- Markup characters removed by NovelParser.calculate_stats. -/
def mdMarkupChar (c : Char) : Bool :=
  c == '#' || c == '*' || c == tickChar || c == '[' || c == ']' || c == '(' || c == ')'

/-- Statistics record of NovelParser.calculate_stats. -/
structure NovelStats where
  wordCount : Nat
  chapterCount : Nat
deriving Repr, DecidableEq

/-- NovelParser.calculate_stats: markup characters are removed, then the
space, newline and carriage-return characters, and the remainder is counted. -/
def calculate_stats (content : Str) (chapters : List ChapterRaw) : NovelStats :=
  let t1 := content.filter (fun c => !(mdMarkupChar c))
  let t2 := ((t1.filter (· != ' ')).filter (· != '\n')).filter (· != '\r')
  { wordCount := t2.length, chapterCount := chapters.length }

/-! ## Text normalization pipeline (services/text_strip_service.py)

Each regex substitution of the service is modelled operationally: the scanner
walks the string left to right exactly as re.sub does, with the greedy /
backtracking behaviour of the concrete pattern spelled out.  Scanners that can
consume many characters in one step take a fuel argument; the wrappers pass
the input length, which bounds the number of steps of any scan. -/

/-- Collapse of every maximal whitespace run into a single space, the
substitution part of strip_extra_whitespace. -/
def collapseWs : Str → Str
  | [] => []
  | [c] => if pyIsSpace c then [' '] else [c]
  | c :: d :: cs =>
    if pyIsSpace c && pyIsSpace d then collapseWs (d :: cs)
    else (if pyIsSpace c then ' ' else c) :: collapseWs (d :: cs)

/-- TextStripService.strip_extra_whitespace: whitespace runs become single
spaces, then the ends are stripped. -/
def strip_extra_whitespace (s : Str) : Str := pyStrip (collapseWs s)

/-- TextStripService.strip_empty_lines: lines that are empty after stripping
are dropped. -/
def strip_empty_lines (s : Str) : Str :=
  joinNL ((splitOnNL s).filter (fun l => !(pyStrip l).isEmpty))

/-- Search for the closing angle bracket of an HTML tag; the dot of the
pattern does not cross a newline. -/
def findTagEnd : Str → Option Str
  | [] => none
  | c :: cs => if c == '>' then some cs else if c == '\n' then none else findTagEnd cs

/-- Scanner of TextStripService.strip_html_tags: a non-greedy tag match
removes everything from an opening angle bracket through the first closing
one on the same line. -/
def stripHtmlGo : Nat → Str → Str
  | 0, s => s
  | _ + 1, [] => []
  | fuel + 1, c :: cs =>
    if c == '<' then
      match findTagEnd cs with
      | some rest => stripHtmlGo fuel rest
      | none => c :: stripHtmlGo fuel cs
    else c :: stripHtmlGo fuel cs

/-- TextStripService.strip_html_tags. -/
def strip_html_tags (s : Str) : Str := stripHtmlGo s.length s

/-- One MULTILINE line-start deletion rule: at a line start the head matcher
may consume some characters, after which a nonempty greedy whitespace run
(which may cross newlines, since the whitespace class contains the newline)
is also consumed; scanning resumes with the line-start flag set exactly when
that run ended in a newline. -/
def lineRuleGo (mh : Str → Option Nat) : Nat → Bool → Str → Str
  | 0, _, s => s
  | _ + 1, _, [] => []
  | fuel + 1, atStart, c :: cs =>
    if atStart then
      match mh (c :: cs) with
      | some k =>
        let rest := (c :: cs).drop k
        let ws := rest.takeWhile pyIsSpace
        if ws.isEmpty then c :: lineRuleGo mh fuel (c == '\n') cs
        else lineRuleGo mh fuel (ws.getLastD ' ' == '\n') (rest.dropWhile pyIsSpace)
      | none => c :: lineRuleGo mh fuel (c == '\n') cs
    else c :: lineRuleGo mh fuel (c == '\n') cs

/-- Head matcher of the heading rule: one to six heading markers; a run of
seven or more never matches. -/
def headingHead (s : Str) : Option Nat :=
  let n := (s.takeWhile (· == '#')).length
  if 1 ≤ n ∧ n ≤ 6 then some n else none

/-- Head matcher of the blockquote rule. -/
def bqHead (s : Str) : Option Nat :=
  if s.take 1 = ['>'] then some 1 else none

/-- Head matcher of the unordered-list rule. -/
def listHead (s : Str) : Option Nat :=
  match s with
  | c :: _ => if c == '*' || c == '-' || c == '+' then some 1 else none
  | [] => none

/-- Head matcher of the ordered-list rule: a digit run and a period. -/
def olHead (s : Str) : Option Nat :=
  let d := (s.takeWhile Char.isDigit).length
  if 1 ≤ d ∧ s.getD d ' ' == '.' then some (d + 1) else none

/-- Scanner of the emphasis rules: up to three marker characters, a nonempty
run free of the marker, and one to three closing markers, keeping the run.
With a longer opening run the match starts at its last three markers, and a
closing run longer than three keeps its tail for further matches. -/
def mdEmphGo (m : Char) : Nat → Str → Str
  | 0, s => s
  | _ + 1, [] => []
  | fuel + 1, c :: cs =>
    if c == m then
      let r := ((c :: cs).takeWhile (· == m)).length
      let afterRun := (c :: cs).drop r
      let content := afterRun.takeWhile (· != m)
      let afterC := afterRun.dropWhile (· != m)
      if content.isEmpty then c :: cs
      else
        match afterC with
        | [] => c :: cs
        | _ =>
          let r2 := (afterC.takeWhile (· == m)).length
          List.replicate (r - min r 3) m ++ content ++ mdEmphGo m fuel (afterC.drop (min r2 3))
    else c :: mdEmphGo m fuel cs

/-- Scanner of the link rule: bracketed nonempty text followed by a
parenthesised nonempty target collapses to the text. -/
def mdLinkGo : Nat → Str → Str
  | 0, s => s
  | _ + 1, [] => []
  | fuel + 1, c :: cs =>
    if c == '[' then
      let t := cs.takeWhile (· != ']')
      match cs.dropWhile (· != ']') with
      | ']' :: '(' :: u =>
        let v := u.takeWhile (· != ')')
        match u.dropWhile (· != ')') with
        | ')' :: w =>
          if t.isEmpty ∨ v.isEmpty then c :: mdLinkGo fuel cs
          else t ++ mdLinkGo fuel w
        | _ => c :: mdLinkGo fuel cs
      | _ => c :: mdLinkGo fuel cs
    else c :: mdLinkGo fuel cs

/-- Scanner of the image rule: an exclamation mark, bracketed possibly-empty
text and a parenthesised nonempty target are deleted. -/
def mdImageGo : Nat → Str → Str
  | 0, s => s
  | _ + 1, [] => []
  | _ + 1, [c] => [c]
  | fuel + 1, c :: d :: cs2 =>
    if c == '!' && d == '[' then
      match cs2.dropWhile (· != ']') with
      | _ :: rest1 =>
        match rest1 with
        | e :: u =>
          if e == '(' then
            let v := u.takeWhile (· != ')')
            match u.dropWhile (· != ')') with
            | _ :: w =>
              if v.isEmpty then c :: mdImageGo fuel (d :: cs2)
              else mdImageGo fuel w
            | [] => c :: mdImageGo fuel (d :: cs2)
          else c :: mdImageGo fuel (d :: cs2)
        | [] => c :: mdImageGo fuel (d :: cs2)
      | [] => c :: mdImageGo fuel (d :: cs2)
    else c :: mdImageGo fuel (d :: cs2)

/-- Scanner of the fenced-code rule: three backticks, a backtick-free run and
three closing backticks are deleted.  A run of six or more backticks matches
immediately with empty content; with a run of three to five the match uses
its last three backticks. -/
def mdCodeBlockGo : Nat → Str → Str
  | 0, s => s
  | _ + 1, [] => []
  | fuel + 1, c :: cs =>
    if c == tickChar then
      let r := ((c :: cs).takeWhile (· == tickChar)).length
      if 6 ≤ r then mdCodeBlockGo fuel ((c :: cs).drop 6)
      else if 3 ≤ r then
        let afterRun := (c :: cs).drop r
        let content := afterRun.takeWhile (· != tickChar)
        let afterC := afterRun.dropWhile (· != tickChar)
        if 3 ≤ (afterC.takeWhile (· == tickChar)).length then
          List.replicate (r - 3) tickChar ++ mdCodeBlockGo fuel (afterC.drop 3)
        else
          List.replicate r tickChar ++ content ++ mdCodeBlockGo fuel afterC
      else
        List.replicate r tickChar ++ mdCodeBlockGo fuel ((c :: cs).drop r)
    else c :: mdCodeBlockGo fuel cs

/-- Scanner of the inline-code rule: a backtick, a nonempty backtick-free run
and a closing backtick collapse to the run; the match opens at the last
backtick of an opening run. -/
def mdInlineCodeGo : Nat → Str → Str
  | 0, s => s
  | _ + 1, [] => []
  | fuel + 1, c :: cs =>
    if c == tickChar then
      let r := ((c :: cs).takeWhile (· == tickChar)).length
      let afterRun := (c :: cs).drop r
      let content := afterRun.takeWhile (· != tickChar)
      let afterC := afterRun.dropWhile (· != tickChar)
      match afterC with
      | d :: w =>
        if d == tickChar then List.replicate (r - 1) tickChar ++ content ++ mdInlineCodeGo fuel w
        else List.replicate r tickChar ++ content ++ mdInlineCodeGo fuel (d :: w)
      | [] => List.replicate r tickChar ++ content
    else c :: mdInlineCodeGo fuel cs

/-- Horizontal-rule line: three or more characters drawn from the marker
set, and nothing else on the line, are deleted. -/
def hrLine (l : Str) : Str :=
  if 3 ≤ l.length ∧ l.all (fun c => c == '*' || c == '-' || c == '_') then [] else l

/-- Heading rule of strip_markdown. -/
def mdHeading (s : Str) : Str := lineRuleGo headingHead s.length true s

/-- Bold and italic rules of strip_markdown. -/
def mdBold (s : Str) : Str := mdEmphGo '*' s.length s

/-- Underscore emphasis rule of strip_markdown. -/
def mdItalic (s : Str) : Str := mdEmphGo '_' s.length s

/-- Link rule of strip_markdown. -/
def mdLink (s : Str) : Str := mdLinkGo s.length s

/-- Image rule of strip_markdown. -/
def mdImage (s : Str) : Str := mdImageGo s.length s

/-- Fenced-code rule of strip_markdown. -/
def mdCodeBlock (s : Str) : Str := mdCodeBlockGo s.length s

/-- Inline-code rule of strip_markdown. -/
def mdInlineCode (s : Str) : Str := mdInlineCodeGo s.length s

/-- Blockquote rule of strip_markdown. -/
def mdBlockquote (s : Str) : Str := lineRuleGo bqHead s.length true s

/-- Unordered-list rule of strip_markdown. -/
def mdListRule (s : Str) : Str := lineRuleGo listHead s.length true s

/-- Ordered-list rule of strip_markdown. -/
def mdOrderedRule (s : Str) : Str := lineRuleGo olHead s.length true s

/-- Horizontal-rule rule of strip_markdown; the match never crosses a
newline, so it acts on each line independently. -/
def mdHr (s : Str) : Str := joinNL ((splitOnNL s).map hrLine)

/-- TextStripService.strip_markdown: the eleven deletion rules in source
order, then strip_extra_whitespace; with keepText false the result is empty
unconditionally. -/
def strip_markdown (s : Str) (keepText : Bool) : Str :=
  if !keepText then []
  else
    strip_extra_whitespace (mdHr (mdOrderedRule (mdListRule (mdBlockquote
      (mdInlineCode (mdCodeBlock (mdImage (mdLink (mdItalic (mdBold
        (mdHeading s)))))))))))

/-- Literal-prefix test on embedded strings. -/
def startsWithStr : Str → Str → Bool
  | _, [] => true
  | [], _ :: _ => false
  | c :: cs, d :: ds => c == d && startsWithStr cs ds

/-- Substring test on embedded strings. -/
def containsSub : Str → Str → Bool
  | [], pat => startsWithStr [] pat
  | c :: cs, pat => startsWithStr (c :: cs) pat || containsSub cs pat

/-- Scanner of TextStripService.strip_urls: a literal scheme and a nonempty
greedy run of non-whitespace characters are deleted. -/
def stripUrlsGo : Nat → Str → Str
  | 0, s => s
  | _ + 1, [] => []
  | fuel + 1, c :: cs =>
    let s := c :: cs
    let scheme : Nat :=
      if startsWithStr s (("https://").toList) then 8
      else if startsWithStr s (("http://").toList) then 7
      else 0
    if scheme == 0 then c :: stripUrlsGo fuel cs
    else
      let rest := s.drop scheme
      let body := rest.takeWhile (fun c => !pyIsSpace c)
      if body.isEmpty then c :: stripUrlsGo fuel cs
      else stripUrlsGo fuel (rest.dropWhile (fun c => !pyIsSpace c))

/-- TextStripService.strip_urls. -/
def strip_urls (s : Str) : Str := stripUrlsGo s.length s

/-- Word characters of the word-boundary assertion, approximating the
unicode word class by ASCII alphanumerics, the underscore, Latin-1 letters,
kana, the CJK unified blocks and Hangul syllables. -/
def pyIsWord (c : Char) : Bool :=
  c.isAlpha || c.isDigit || c == '_' ||
  (0x3040 ≤ c.toNat && c.toNat ≤ 0x30FF) ||
  (0x3400 ≤ c.toNat && c.toNat ≤ 0x9FFF) ||
  (0xAC00 ≤ c.toNat && c.toNat ≤ 0xD7A3) ||
  (0xC0 ≤ c.toNat && c.toNat ≤ 0xFF && c.toNat != 0xD7 && c.toNat != 0xF7)

/-- Characters of the local part of the email pattern. -/
def emailLocalChar (c : Char) : Bool :=
  c.isAlpha || c.isDigit || c == '.' || c == '_' || c == '%' || c == '+' || c == '-'

/-- Characters of the domain part of the email pattern. -/
def emailDomainChar (c : Char) : Bool :=
  c.isAlpha || c.isDigit || c == '.' || c == '-'

/-- Characters of the final label class of the email pattern, which spells
the letter ranges with a literal vertical bar inside the class. -/
def emailTldChar (c : Char) : Bool :=
  c.isAlpha || c == '|'

/-- Word-ness of the character at a given offset; the end of the string
counts as a non-word position. -/
def wordAt (s : Str) (i : Nat) : Bool :=
  match s.drop i with
  | [] => false
  | c :: _ => pyIsWord c

/-- Backtracking of the greedy final label: lengths are tried from the
greedy run downward, stopping at two, until the closing word boundary
holds.  The value tried first is the run length. -/
def tryTldLen (v t : Str) : Nat → Option (Bool × Str)
  | 0 => none
  | k + 1 =>
    if k + 1 < 2 then none
    else
      let lastW := pyIsWord (t.getD k ' ')
      if lastW != wordAt v (k + 1) then some (lastW, v.drop (k + 1))
      else tryTldLen v t k

/-- Match attempt of the email pattern after a candidate dot: the final
label is the greedy run of label characters after the dot. -/
def tryDotAt (u : Str) (j : Nat) : Option (Bool × Str) :=
  let v := u.drop (j + 1)
  let t := v.takeWhile emailTldChar
  tryTldLen v t t.length

/-- Backtracking of the greedy domain run over its candidate dots, tried
right to left. -/
def tryDomainGo (u : Str) : List Nat → Option (Bool × Str)
  | [] => none
  | j :: js =>
    match tryDotAt u j with
    | some r => some r
    | none => tryDomainGo u js

/-- Domain-and-label match of the email pattern after the at sign. -/
def tryDomain (u : Str) : Option (Bool × Str) :=
  let dm := u.takeWhile emailDomainChar
  let dots := ((List.range dm.length).filter
    (fun j => 1 ≤ j ∧ dm.getD j ' ' == '.')).reverse
  tryDomainGo u dots

/-- Match attempt of the whole email pattern at one position, given the
word-ness of the preceding character; the leading word boundary is checked
against the first character of the local part. -/
def tryEmail (prevW : Bool) (s : Str) : Option (Bool × Str) :=
  match s with
  | [] => none
  | c :: _ =>
    if !(emailLocalChar c) then none
    else if prevW == pyIsWord c then none
    else
      match s.dropWhile emailLocalChar with
      | d :: u => if d == '@' then tryDomain u else none
      | [] => none

/-- Scanner of TextStripService.strip_email. -/
def stripEmailGo : Nat → Bool → Str → Str
  | 0, _, s => s
  | _ + 1, _, [] => []
  | fuel + 1, prevW, c :: cs =>
    match tryEmail prevW (c :: cs) with
    | some (w, rest) => stripEmailGo fuel w rest
    | none => c :: stripEmailGo fuel (pyIsWord c) cs

/-- TextStripService.strip_email. -/
def strip_email (s : Str) : Str := stripEmailGo s.length false s

/-- Membership in the character-class union of the emoji pattern; the final
range starts far below the pictographic planes and covers, among others, the
CJK unified block. -/
def emojiChar (c : Char) : Bool :=
  (0x1F600 ≤ c.toNat && c.toNat ≤ 0x1F64F) ||
  (0x1F300 ≤ c.toNat && c.toNat ≤ 0x1F5FF) ||
  (0x1F680 ≤ c.toNat && c.toNat ≤ 0x1F6FF) ||
  (0x1F1E0 ≤ c.toNat && c.toNat ≤ 0x1F1FF) ||
  (0x2702 ≤ c.toNat && c.toNat ≤ 0x27B0) ||
  (0x24C2 ≤ c.toNat && c.toNat ≤ 0x1F251)

/-- TextStripService.strip_emoji. -/
def strip_emoji (s : Str) : Str := s.filter (fun c => !emojiChar c)

/-- Zero-width characters removed explicitly by strip_invisible_chars. -/
def zeroWidthChar (c : Char) : Bool :=
  c.toNat == 0x200B || c.toNat == 0x200C || c.toNat == 0x200D || c.toNat == 0xFEFF

/-- Membership in the top-level category C of unicodedata, modelled by the
control range, the format characters by their standard ranges, the
surrogates and the private-use ranges; unassigned code points are not
modelled. -/
def pyIsCatC (c : Char) : Bool :=
  c.toNat < 0x20 || (0x7F ≤ c.toNat && c.toNat ≤ 0x9F) ||
  c.toNat == 0xAD || (0x600 ≤ c.toNat && c.toNat ≤ 0x605) ||
  c.toNat == 0x61C || c.toNat == 0x6DD || c.toNat == 0x70F ||
  (0x890 ≤ c.toNat && c.toNat ≤ 0x891) || c.toNat == 0x8E2 ||
  c.toNat == 0x180E ||
  (0x200B ≤ c.toNat && c.toNat ≤ 0x200F) ||
  (0x202A ≤ c.toNat && c.toNat ≤ 0x202E) ||
  (0x2060 ≤ c.toNat && c.toNat ≤ 0x2064) ||
  (0x2066 ≤ c.toNat && c.toNat ≤ 0x206F) ||
  c.toNat == 0xFEFF || (0xFFF9 ≤ c.toNat && c.toNat ≤ 0xFFFB) ||
  (0xD800 ≤ c.toNat && c.toNat ≤ 0xDFFF) ||
  (0xE000 ≤ c.toNat && c.toNat ≤ 0xF8FF) ||
  c.toNat == 0x110BD || c.toNat == 0x110CD ||
  (0x13430 ≤ c.toNat && c.toNat ≤ 0x1343F) ||
  (0x1BCA0 ≤ c.toNat && c.toNat ≤ 0x1BCA3) ||
  (0x1D173 ≤ c.toNat && c.toNat ≤ 0x1D17A) ||
  c.toNat == 0xE0001 || (0xE0020 ≤ c.toNat && c.toNat ≤ 0xE007F) ||
  (0xF0000 ≤ c.toNat && c.toNat ≤ 0xFFFFD) ||
  (0x100000 ≤ c.toNat && c.toNat ≤ 0x10FFFD)

/-- TextStripService.strip_invisible_chars: zero-width characters, then every
remaining character of category C, are removed. -/
def strip_invisible_chars (s : Str) : Str :=
  (s.filter (fun c => !zeroWidthChar c)).filter (fun c => !pyIsCatC c)

/-- Per-character quote normalization of TextStripService.normalize_quotes. -/
def nqChar (c : Char) : Char :=
  if c == '“' || c == '”' || c == '「' || c == '」' || c == '『' || c == '』' then '"'
  else if c == '‘' || c == '’' then '\''
  else c

/-- TextStripService.normalize_quotes. -/
def normalize_quotes (s : Str) : Str := s.map nqChar

/-- Wide punctuation class of TextStripService.strip_punctuation. -/
def cnPunctChar (c : Char) : Bool :=
  c == '。' || c == '，' || c == '、' || c == '；' || c == '：' ||
  c == '？' || c == '！' || c == '“' || c == '”' || c == '‘' || c == '’' ||
  c == '（' || c == '）' || c == '《' || c == '》' || c == '【' || c == '】' ||
  c == '…' || c == '—'

/-- Narrow punctuation class of TextStripService.strip_punctuation. -/
def enPunctChar (c : Char) : Bool :=
  c == '.' || c == ',' || c == ';' || c == ':' || c == '?' || c == '!' ||
  c == '\'' || c == '"' || c == '(' || c == ')' || c == '[' || c == ']' ||
  c == '\x7b' || c == '\x7d' || c == '<' || c == '>'

/-- TextStripService.strip_punctuation with its default category list: the
wide class is removed, then the narrow class. -/
def strip_punctuation (s : Str) : Str :=
  (s.filter (fun c => !cnPunctChar c)).filter (fun c => !enPunctChar c)

/-- Options mapping of smart_strip, embedded as an association list from key
names to truthiness. -/
abbrev StripOptions := List (String × Bool)

/-- Dictionary get with a falsy default. -/
def optGet (o : StripOptions) (k : String) : Bool :=
  match o.lookup k with
  | some b => b
  | none => false

/-- Default options installed by smart_strip when the argument is missing or
falsy. -/
def defaultSmartOptions : StripOptions :=
  [(("strip_whitespace"), true), (("strip_html"), true),
   (("strip_markdown"), false), (("strip_punctuation"), false),
   (("strip_urls"), true), (("strip_emoji"), true), (("normalize"), true)]

/-- TextStripService.smart_strip: empty input returns immediately; a missing
or empty options mapping is replaced by the default; the toggled rule groups
run in fixed order; invisible-character removal always runs last. -/
def smart_strip (text : Str) (options : Option StripOptions) : Str :=
  if text.isEmpty then []
  else
    let opts :=
      match options with
      | none => defaultSmartOptions
      | some o => if o.isEmpty then defaultSmartOptions else o
    let t := text
    let t := if optGet opts ("strip_html") then strip_html_tags t else t
    let t := if optGet opts ("strip_markdown") then strip_markdown t true else t
    let t := if optGet opts ("strip_urls") then strip_urls t else t
    let t := if optGet opts ("strip_emoji") then strip_emoji t else t
    let t := if optGet opts ("strip_punctuation") then strip_punctuation t else t
    let t := if optGet opts ("normalize") then normalize_quotes t else t
    let t := if optGet opts ("strip_whitespace") then
        strip_empty_lines (strip_extra_whitespace t)
      else t
    strip_invisible_chars t

/-- TextStripService.extract_clean_text: the fixed cleaning pipeline in
source order. -/
def extract_clean_text (s : Str) : Str :=
  strip_empty_lines (strip_extra_whitespace (strip_invisible_chars
    (strip_emoji (strip_email (strip_urls (strip_markdown (strip_html_tags s) true))))))

/-- Python str.split applied with a double-newline separator. -/
def splitOn2NL : Str → List Str
  | [] => [[]]
  | '\n' :: '\n' :: cs => [] :: splitOn2NL cs
  | c :: cs =>
    match splitOn2NL cs with
    | [] => [[c]]
    | t :: ts => (c :: t) :: ts

/-- Python join with a double-newline separator. -/
def join2NL : List Str → Str
  | [] => []
  | [l] => l
  | l :: l2 :: ls => l ++ '\n' :: '\n' :: join2NL (l2 :: ls)

/-- Two full-width spaces, the paragraph indentation marker of
prepare_for_publishing. -/
def indentMarker : Str := ['　', '　']

/-- TextStripService.prepare_for_publishing: light cleaning, then each
stripped nonempty paragraph of the double-newline split receives the
indentation marker unless it already starts with it. -/
def prepare_for_publishing (s : Str) : Str :=
  let t := normalize_quotes (strip_extra_whitespace (strip_invisible_chars s))
  join2NL ((splitOn2NL t).filterMap (fun p =>
    let q := pyStrip p
    if q.isEmpty then none
    else if q.take 2 = indentMarker then some q
    else some (indentMarker ++ q)))

/-- Character class of the chinese-character count of get_stats. -/
def isCJKChar (c : Char) : Bool := 0x4E00 ≤ c.toNat && c.toNat ≤ 0x9FA5

/-- Whitespace split of Python str.split with no argument: maximal nonempty
runs of non-whitespace characters. -/
def pySplitWsGo : Nat → Str → List Str
  | 0, _ => []
  | fuel + 1, s =>
    match s.dropWhile pyIsSpace with
    | [] => []
    | c :: cs =>
      ((c :: cs).takeWhile (fun d => !pyIsSpace d)) ::
        pySplitWsGo fuel ((c :: cs).dropWhile (fun d => !pyIsSpace d))

/-- Python str.split with no argument. -/
def pySplitWs (s : Str) : List Str := pySplitWsGo (s.length + 1) s

/-- Statistics record of TextStripService.get_stats. -/
structure TextStats where
  total_chars : Nat
  clean_chars : Nat
  chinese_chars : Nat
  english_chars : Nat
  numbers : Nat
  lines : Nat
  paragraphs : Nat
  words : Nat
deriving Repr, DecidableEq

/-- TextStripService.get_stats: the clean text is produced by
extract_clean_text; the class counts run over the clean text; the totals,
lines and paragraphs run over the raw input. -/
def get_stats (text : Str) : TextStats :=
  let clean := extract_clean_text text
  { total_chars := text.length
    clean_chars := clean.length
    chinese_chars := (clean.filter isCJKChar).length
    english_chars := (clean.filter Char.isAlpha).length
    numbers := (clean.filter Char.isDigit).length
    lines := (splitOnNL text).length
    paragraphs := ((splitOn2NL text).filter (fun p => !(pyStrip p).isEmpty)).length
    words := (pySplitWs clean).length }

/-! ## Claim C1: chapter-boundary recognition -/

/-- Boundary predicate exactly as claim C1 words it: after stripping leading
whitespace the line begins with exactly two heading markers, then a space,
then at least one non-whitespace character. -/
def claimBoundaryC1 (line : Str) : Bool :=
  match line.dropWhile pyIsSpace with
  | '#' :: '#' :: ' ' :: rest => rest.any (fun c => !pyIsSpace c)
  | _ => false

/-- Claim C1 fails on the code: a line with leading whitespace before the
markers satisfies the claim's boundary condition, yet extract_chapters finds
no chapter in a text whose only candidate is that line, because the source
pattern is anchored at the very first character of the line. -/
theorem c1_counterexample :
    claimBoundaryC1 ((" ## A").toList) = true ∧
    extract_chapters ((" ## A\nB").toList) = [] := by
  constructor
  · rfl
  · rfl

/-- Claim C1 (amended): a line is a chapter boundary exactly when it starts,
at its very first character and with no leading whitespace allowed, with two
heading markers followed by at least one whitespace character and at least
one further character of any kind; the title is the remainder after the
maximal whitespace run when that remainder is nonempty, and otherwise the
final whitespace character of the line. -/
theorem c1_amended (line : Str) :
    chapterMatch line =
      if line.take 2 = ['#', '#'] ∧ 2 ≤ (line.drop 2).length ∧
          pyIsSpace ((line.drop 2).headD '#') = true then
        some (if ((line.drop 2).dropWhile pyIsSpace).isEmpty = true
              then [(line.drop 2).getLastD ' ']
              else (line.drop 2).dropWhile pyIsSpace)
      else none := by
  rcases line with _ | ⟨c, line⟩
  · simp [chapterMatch]
  rcases line with _ | ⟨d, rest⟩
  · rw [chapterMatch.eq_def]
    split
    · rename_i rest h
      exact absurd h (by simp)
    · simp
  by_cases hc : c = '#'
  · by_cases hd : d = '#'
    · subst hc; subst hd
      rw [chapterMatch.eq_def]
      simp only [List.take, List.drop, List.headD]
      rcases rest with _ | ⟨r, rs⟩
      · simp
      by_cases hr : pyIsSpace r
      · simp only [List.takeWhile_cons, List.dropWhile_cons, hr, if_true, List.isEmpty_cons,
          List.length_cons, List.headD_cons]
        rcases rs with _ | ⟨r2, rs2⟩
        · simp [List.dropWhile, hr]
        · have hlen : 2 ≤ rs2.length + 1 + 1 := by omega
          simp only [hr, hlen, if_true, and_true, true_and]
          simp
          split <;> simp
      · simp [List.takeWhile_cons, List.dropWhile_cons, hr]
    · rw [chapterMatch.eq_def]
      split
      · rename_i rest2 h
        exact absurd h (by simp [hd])
      · simp [hd]
  · rw [chapterMatch.eq_def]
    split
    · rename_i rest2 h
      exact absurd h (by simp [hc])
    · simp [hc]

/-! ## Claim C2: word count of calculate_stats -/

/-- Word count exactly as claim C2 words it: markup characters removed, then
all whitespace characters, the latter enumerated as spaces, tabs, newlines
and carriage returns. -/
def claimWordCountC2 (content : Str) : Nat :=
  (content.filter (fun c =>
    !(mdMarkupChar c) &&
      !(c == ' ' || c == '\t' || c == '\n' || c == '\r'))).length

/-- Claim C2 fails on the code: on a text consisting of one tab the source
keeps the tab, since its replacements remove only the space, newline and
carriage-return characters, while the claim's count removes it. -/
theorem c2_counterexample :
    (calculate_stats (("\t").toList) []).wordCount = 1 ∧
    claimWordCountC2 (("\t").toList) = 0 := by
  constructor
  · rfl
  · rfl

/-- Claim C2 (amended): the word count equals the number of characters left
after removing the markup characters and the space, newline and
carriage-return characters; tabs and all other whitespace are kept. -/
theorem c2_amended (content : Str) (chapters : List ChapterRaw) :
    (calculate_stats content chapters).wordCount =
      (content.filter (fun c =>
        !(mdMarkupChar c) && !(c == ' ') && !(c == '\n') && !(c == '\r'))).length := by
  simp only [calculate_stats, List.filter_filter]
  congr 1
  apply List.filter_congr
  intro c _
  cases mdMarkupChar c <;> cases hs : c == ' ' <;> cases hn : c == '\n' <;>
    cases hr : c == '\r' <;> simp_all

/-! ## Claim C5: extract_title fallback -/

/-- Candidate condition of the extract_title scanning loop, as a
proposition. -/
def Level1Line (l : Str) : Prop :=
  (pyStrip l).take 1 = ['#'] ∧ ¬ (pyStrip l).take 2 = ['#', '#'] ∧
    ¬ pyStrip (hashSub (pyStrip l)) = []

instance (l : Str) : Decidable (Level1Line l) := by
  unfold Level1Line; infer_instance

/-- With no candidate line the scanning loop of extract_title fails. -/
theorem findTitle_eq_none (lines : List Str)
    (h : ∀ l ∈ lines, ¬ Level1Line l) : findTitle lines = none := by
  induction lines with
  | nil => rfl
  | cons l ls ih =>
    have hl := h l (by simp)
    have hrest : ∀ x ∈ ls, ¬ Level1Line x := fun x hx => h x (by simp [hx])
    unfold findTitle
    by_cases h1 : (pyStrip l).take 1 = ['#'] ∧ ¬ (pyStrip l).take 2 = ['#', '#']
    · simp only [h1, if_true]
      have h2 : (pyStrip (hashSub (pyStrip l))).isEmpty = true := by
        by_contra hne
        exact hl ⟨h1.1, h1.2, by simpa using hne⟩
      simp [h2, ih hrest]
    · simp [h1, ih hrest]

/-- Claim C5: on a text with no level-one heading line, extract_title falls
back to the third line with markers and surrounding whitespace stripped, and
returns the fixed placeholder when that is empty or when fewer than three
lines exist. -/
theorem c5_no_level1_fallback (content : Str)
    (h : ∀ l ∈ splitOnNL content, ¬ Level1Line l) :
    extract_title content =
      if 3 ≤ (splitOnNL content).length then
        (let t := pyStrip ((pyStrip ((splitOnNL content).getD 2 [])).filter (· != '#'))
         if t.isEmpty then titlePlaceholder else t)
      else titlePlaceholder := by
  simp only [extract_title]
  rw [findTitle_eq_none _ h]

/-- Witness for C5 at a concrete text with no level-one heading: the result
is the stripped, marker-free third line. -/
theorem c5_witness :
    extract_title (("a\nb\nc#").toList) = ("c").toList := by
  have h := c5_no_level1_fallback (("a\nb\nc#").toList) (by decide)
  exact h.trans (by rfl)

/-! ## Claim C6: chapter sequence numbers -/

/-- Sequence numbers produced by the enumeration loop count up from one past
the starting index. -/
theorem buildChapterListGo_map_seq (l : List ChapterRaw) :
    ∀ i, (buildChapterListGo i l).map (fun ch => ch.seq) =
      List.range' (i + 1) l.length := by
  induction l with
  | nil => intro i; rfl
  | cons ch rest ih =>
    intro i
    simpa [buildChapterListGo, List.range'] using ih (i + 1)

/-- The enumeration loop keeps titles and contents unchanged in order. -/
theorem buildChapterListGo_map_tc (l : List ChapterRaw) :
    ∀ i, (buildChapterListGo i l).map (fun ch => (ch.chapterTitle, ch.content)) =
      l.map (fun ch => (ch.chapterTitle, ch.content)) := by
  induction l with
  | nil => intro i; rfl
  | cons ch rest ih =>
    intro i
    simp [buildChapterListGo, ih (i + 1)]

/-- Claim C6: the chapter list built by the parse route carries sequence
numbers one through the chapter count with no gaps, in the order the chapter
boundaries were encountered, and titles and contents are kept in that same
order. -/
theorem c6_sequence (content : Str) :
    ((buildChapterList (extract_chapters content)).map (fun ch => ch.seq) =
      List.range' 1 (extract_chapters content).length) ∧
    ((buildChapterList (extract_chapters content)).map
        (fun ch => (ch.chapterTitle, ch.content)) =
      (extract_chapters content).map (fun ch => (ch.chapterTitle, ch.content))) :=
  ⟨buildChapterListGo_map_seq _ 0, buildChapterListGo_map_tc _ 0⟩

/-! ## Claim C10: smart_strip on falsy options and empty input -/

/-- Claim C10: an empty options mapping is treated exactly like a missing
one, both falling back to the default preset, and empty input yields empty
output for every options argument. -/
theorem c10_falsy_options :
    (∀ text : Str, smart_strip text (some []) = smart_strip text none) ∧
    (∀ options : Option StripOptions, smart_strip [] options = []) :=
  ⟨fun _ => rfl, fun _ => rfl⟩

/-! ## Claim C7: smart_strip rule order and the unconditional final pass -/

/-- Rule groups of smart_strip before the final pass, composed in the fixed
order that claim C7 states: HTML tags, then markup, then URLs, then emoji,
then punctuation, then quote normalization, then whitespace collapsing with
blank-line removal. -/
def smartRuleGroups (text : Str) (options : Option StripOptions) : Str :=
  let opts :=
    match options with
    | none => defaultSmartOptions
    | some o => if o.isEmpty then defaultSmartOptions else o
  let t := text
  let t := if optGet opts ("strip_html") then strip_html_tags t else t
  let t := if optGet opts ("strip_markdown") then strip_markdown t true else t
  let t := if optGet opts ("strip_urls") then strip_urls t else t
  let t := if optGet opts ("strip_emoji") then strip_emoji t else t
  let t := if optGet opts ("strip_punctuation") then strip_punctuation t else t
  let t := if optGet opts ("normalize") then normalize_quotes t else t
  if optGet opts ("strip_whitespace") then
    strip_empty_lines (strip_extra_whitespace t)
  else t

theorem strip_html_tags_nil : strip_html_tags [] = [] := rfl

theorem strip_markdown_nil : strip_markdown [] true = [] := rfl

theorem strip_urls_nil : strip_urls [] = [] := rfl

theorem strip_emoji_nil : strip_emoji [] = [] := rfl

theorem strip_punctuation_nil : strip_punctuation [] = [] := rfl

theorem normalize_quotes_nil : normalize_quotes [] = [] := rfl

theorem strip_extra_whitespace_nil : strip_extra_whitespace [] = [] := rfl

theorem strip_empty_lines_nil : strip_empty_lines [] = [] := rfl

/-- Every rule group maps the empty string to itself, so the grouped
pipeline does as well. -/
theorem smartRuleGroups_nil (options : Option StripOptions) :
    smartRuleGroups [] options = [] := by
  simp only [smartRuleGroups, strip_html_tags_nil, strip_markdown_nil,
    strip_urls_nil, strip_emoji_nil, strip_punctuation_nil,
    normalize_quotes_nil, strip_extra_whitespace_nil, strip_empty_lines_nil,
    ite_self]

/-- Membership in the output of the invisible-character pass rules out
category-C and zero-width characters. -/
theorem mem_strip_invisible {s : Str} {c : Char} (hc : c ∈ strip_invisible_chars s) :
    pyIsCatC c = false ∧ zeroWidthChar c = false := by
  unfold strip_invisible_chars at hc
  have h2 := List.mem_filter.mp hc
  have h1 := List.mem_filter.mp h2.1
  exact ⟨by simpa using h2.2, by simpa using h1.2⟩

/-- Claim C7: for every text and every options mapping, smart_strip is the
invisible-character pass applied unconditionally on top of the toggled rule
groups in their fixed order, and consequently no character of the output is
a zero-width or other category-C character. -/
theorem c7_order_and_invisible (text : Str) (options : Option StripOptions) :
    smart_strip text options = strip_invisible_chars (smartRuleGroups text options) ∧
    ∀ c ∈ smart_strip text options, pyIsCatC c = false ∧ zeroWidthChar c = false := by
  have heq : smart_strip text options = strip_invisible_chars (smartRuleGroups text options) := by
    by_cases h : text.isEmpty
    · have : text = [] := by simpa using h
      subst this
      rw [smartRuleGroups_nil]
      rfl
    · have h' : text.isEmpty = false := by simpa using h
      simp [smart_strip, smartRuleGroups, h']
  refine ⟨heq, ?_⟩
  intro c hc
  rw [heq] at hc
  exact mem_strip_invisible hc

/-! ## List kit: lengths, strips and splits -/

theorem nvLengthDropWhileLe (p : Char → Bool) (l : Str) :
    (l.dropWhile p).length ≤ l.length := by
  induction l with
  | nil => simp
  | cons c cs ih =>
    by_cases h : p c
    · simp only [List.dropWhile_cons, h, if_true]
      exact Nat.le_trans ih (by simp)
    · simp [List.dropWhile_cons, h]

theorem nvLengthTakeWhileLe (p : Char → Bool) (l : Str) :
    (l.takeWhile p).length ≤ l.length := by
  induction l with
  | nil => simp
  | cons c cs ih =>
    by_cases h : p c
    · simp only [List.takeWhile_cons, h, if_true]
      simpa using ih
    · simp [List.takeWhile_cons, h]

/-- Head of a dropWhile result always refutes the predicate. -/
theorem nvDropWhileHead {p : Char → Bool} {l t : Str} {c : Char}
    (h : l.dropWhile p = c :: t) : p c = false := by
  induction l with
  | nil => simp at h
  | cons d ds ih =>
    by_cases hd : p d
    · rw [List.dropWhile_cons, if_pos hd] at h
      exact ih h
    · rw [List.dropWhile_cons, if_neg hd] at h
      cases h
      simpa using hd

/-- Unfolding equation of the right strip on a cons cell. -/
theorem pyStripRight_cons_eq (c : Char) (cs : Str) :
    pyStripRight (c :: cs) =
      match pyStripRight cs with
      | [] => if pyIsSpace c then [] else [c]
      | r => c :: r := rfl

/-- Result shape of the right strip: empty, or headed by the original
head. -/
theorem pyStripRight_cons_shape (c : Char) (cs : Str) :
    pyStripRight (c :: cs) = [] ∨ ∃ t, pyStripRight (c :: cs) = c :: t := by
  rw [pyStripRight_cons_eq]
  cases h : pyStripRight cs with
  | nil =>
    by_cases hc : pyIsSpace c
    · left; simp [hc]
    · right; exact ⟨[], by simp [hc]⟩
  | cons d t => right; exact ⟨d :: t, rfl⟩

theorem pyStripRight_idem (s : Str) : pyStripRight (pyStripRight s) = pyStripRight s := by
  induction s with
  | nil => rfl
  | cons c cs ih =>
    rw [pyStripRight_cons_eq]
    cases h : pyStripRight cs with
    | nil =>
      by_cases hc : pyIsSpace c
      · simp [hc, pyStripRight]
      · show pyStripRight (if pyIsSpace c then [] else [c]) = if pyIsSpace c then [] else [c]
        rw [if_neg hc]
        rw [pyStripRight_cons_eq]
        show (if pyIsSpace c then [] else [c]) = [c]
        rw [if_neg hc]
    | cons d t =>
      show pyStripRight (c :: d :: t) = c :: d :: t
      rw [pyStripRight_cons_eq]
      rw [h] at ih
      rw [ih]

/-- Dropping a satisfied-prefix from a list whose head refutes the predicate
changes nothing. -/
theorem nvDropWhileEqSelf {p : Char → Bool} {s : Str}
    (h : ∀ c t, s = c :: t → p c = false) : s.dropWhile p = s := by
  cases s with
  | nil => rfl
  | cons c t => rw [List.dropWhile_cons, if_neg (by simp [h c t rfl])]

theorem pyStrip_idem (s : Str) : pyStrip (pyStrip s) = pyStrip s := by
  unfold pyStrip
  have hdrop : (pyStripRight (s.dropWhile pyIsSpace)).dropWhile pyIsSpace =
      pyStripRight (s.dropWhile pyIsSpace) := by
    apply nvDropWhileEqSelf
    intro c t h
    cases hu : s.dropWhile pyIsSpace with
    | nil => rw [hu] at h; simp [pyStripRight] at h
    | cons d ds =>
      rw [hu] at h
      rcases pyStripRight_cons_shape d ds with h0 | ⟨t2, h2⟩
      · rw [h0] at h; cases h
      · rw [h2] at h
        cases h
        exact nvDropWhileHead hu
  rw [hdrop, pyStripRight_idem]

/-- Unfolding equation of the whitespace collapse on two cons cells. -/
theorem collapseWs_cons2 (c d : Char) (cs : Str) :
    collapseWs (c :: d :: cs) =
      if pyIsSpace c && pyIsSpace d then collapseWs (d :: cs)
      else (if pyIsSpace c then ' ' else c) :: collapseWs (d :: cs) := rfl

/-- Whitespace characters surviving the collapse are single spaces. -/
theorem collapseWs_ws_eq_space : ∀ (s : Str), ∀ c ∈ collapseWs s,
    pyIsSpace c = true → c = ' ' := by
  intro s
  match s with
  | [] => intro c hc; simp [collapseWs] at hc
  | [d] =>
    intro c hc hws
    by_cases hd : pyIsSpace d
    · simp [collapseWs, hd] at hc; simp [hc]
    · simp [collapseWs, hd] at hc
      subst hc
      simp [hd] at hws
  | d :: e :: t =>
    intro c hc hws
    rw [collapseWs_cons2] at hc
    by_cases hd : pyIsSpace d
    · by_cases he : pyIsSpace e
      · simp only [hd, he, Bool.and_self, if_true] at hc
        exact collapseWs_ws_eq_space (e :: t) c hc hws
      · simp [hd, he] at hc
        rcases hc with hc | hc
        · exact hc
        · exact collapseWs_ws_eq_space (e :: t) c hc hws
    · simp [hd] at hc
      rcases hc with hc | hc
      · subst hc; simp [hd] at hws
      · exact collapseWs_ws_eq_space (e :: t) c hc hws

/-- Membership through the right strip. -/
theorem mem_pyStripRight {s : Str} {c : Char} (h : c ∈ pyStripRight s) : c ∈ s := by
  induction s with
  | nil => simpa [pyStripRight] using h
  | cons d ds ih =>
    rw [pyStripRight_cons_eq] at h
    cases hr : pyStripRight ds with
    | nil =>
      rw [hr] at h
      by_cases hd : pyIsSpace d <;> simp [hd] at h
      simp [h]
    | cons e t =>
      rw [hr] at h
      have h' : c ∈ d :: e :: t := h
      rcases List.mem_cons.mp h' with h1 | h2
      · simp [h1]
      · right
        apply ih
        rw [hr]
        exact h2

/-- Membership through the left strip. -/
theorem mem_dropWhile {p : Char → Bool} {s : Str} {c : Char}
    (h : c ∈ s.dropWhile p) : c ∈ s := by
  induction s with
  | nil => simpa using h
  | cons d ds ih =>
    by_cases hd : p d
    · rw [List.dropWhile_cons, if_pos hd] at h
      exact List.mem_cons_of_mem d (ih h)
    · rw [List.dropWhile_cons, if_neg hd] at h
      exact h

/-- Whitespace characters of a strip_extra_whitespace output are single
spaces; in particular the output has no newline. -/
theorem sew_ws_eq_space {s : Str} {c : Char} (h : c ∈ strip_extra_whitespace s)
    (hws : pyIsSpace c = true) : c = ' ' := by
  unfold strip_extra_whitespace pyStrip at h
  exact collapseWs_ws_eq_space s c (mem_dropWhile (mem_pyStripRight h)) hws

theorem sew_no_newline (s : Str) : '\n' ∉ strip_extra_whitespace s := by
  intro h
  have := sew_ws_eq_space h (by decide)
  exact absurd this (by decide)

/-- Python split on newline never returns the empty list. -/
theorem splitOnNL_ne_nil (s : Str) : splitOnNL s ≠ [] := by
  cases s with
  | nil => simp [splitOnNL]
  | cons c cs =>
    rw [splitOnNL.eq_def]
    by_cases h : c == '\n'
    · simp [h]
    · simp only [h, if_false]
      cases hr : splitOnNL cs <;> simp

/-- Join after split on newline restores the string. -/
theorem joinNL_splitOnNL (s : Str) : joinNL (splitOnNL s) = s := by
  induction s with
  | nil => rfl
  | cons c cs ih =>
    rw [splitOnNL.eq_def]
    by_cases h : c == '\n'
    · simp only [h, if_true]
      cases hr : splitOnNL cs with
      | nil => exact absurd hr (splitOnNL_ne_nil cs)
      | cons t ts =>
        have hc : c = '\n' := by simpa using h
        subst hc
        rw [hr] at ih
        simp [joinNL, ih]
    · simp only [h, if_false]
      cases hr : splitOnNL cs with
      | nil => exact absurd hr (splitOnNL_ne_nil cs)
      | cons t ts =>
        rw [hr] at ih
        cases ts with
        | nil => simpa [joinNL] using ih
        | cons t2 ts2 => simpa [joinNL] using ih

/-- Split on newline of a newline-free string is that single piece. -/
theorem splitOnNL_no_nl {s : Str} (h : '\n' ∉ s) : splitOnNL s = [s] := by
  induction s with
  | nil => rfl
  | cons c cs ih =>
    have hc : ¬ (c == '\n') = true := by
      simp only [beq_iff_eq]
      intro he; exact h (by simp [he])
    simp only [splitOnNL]
    rw [ih (fun hm => h (List.mem_cons_of_mem c hm))]
    simp [hc]

/-- Blank-line removal on a newline-free string keeps it when its strip is
nonempty and empties it otherwise. -/
theorem sel_no_nl {s : Str} (h : '\n' ∉ s) :
    strip_empty_lines s = if (pyStrip s).isEmpty then [] else s := by
  unfold strip_empty_lines
  rw [splitOnNL_no_nl h]
  by_cases he : (pyStrip s).isEmpty
  · simp [he, joinNL]
  · simp [he, joinNL]

/-- Blank-line removal is the identity on every strip_extra_whitespace
output. -/
theorem sel_sew (s : Str) :
    strip_empty_lines (strip_extra_whitespace s) = strip_extra_whitespace s := by
  rw [sel_no_nl (sew_no_newline s)]
  have : pyStrip (strip_extra_whitespace s) = strip_extra_whitespace s := by
    unfold strip_extra_whitespace
    exact pyStrip_idem _
  rw [this]
  by_cases he : (strip_extra_whitespace s).isEmpty
  · rw [if_pos he]
    have h2 : strip_extra_whitespace s = [] := by simpa using he
    exact h2.symm
  · rw [if_neg he]

/-! ## Length bounds of the pipeline stages, towards claim C8 -/

theorem findTagEnd_length {cs rest : Str} (h : findTagEnd cs = some rest) :
    rest.length ≤ cs.length := by
  induction cs generalizing rest with
  | nil => simp [findTagEnd] at h
  | cons c t ih =>
    simp only [findTagEnd] at h
    by_cases h1 : c == '>'
    · simp [h1] at h
      subst h; simp
    · simp only [h1] at h
      by_cases h2 : c == '\n'
      · simp [h2] at h
      · simp [h2] at h
        exact Nat.le_trans (ih h) (by simp)

theorem stripHtmlGo_length_le : ∀ fuel s, (stripHtmlGo fuel s).length ≤ s.length := by
  intro fuel
  induction fuel with
  | zero => intro s; exact Nat.le_refl _
  | succ fuel ih =>
    intro s
    cases s with
    | nil => simp [stripHtmlGo]
    | cons c cs =>
      simp only [stripHtmlGo]
      by_cases hc : (c == '<') = true
      · rw [if_pos hc]
        cases hf : findTagEnd cs with
        | some rest =>
          simp only [hf]
          have h1 := ih rest
          have h2 := findTagEnd_length hf
          simp only [List.length_cons]
          omega
        | none =>
          simp only [hf, List.length_cons]
          have := ih cs
          omega
      · rw [if_neg hc]
        simp only [List.length_cons]
        have := ih cs
        omega

theorem lineRuleGo_length_le (mh : Str → Option Nat) :
    ∀ fuel b s, (lineRuleGo mh fuel b s).length ≤ s.length := by
  intro fuel
  induction fuel with
  | zero => intro b s; exact Nat.le_refl _
  | succ fuel ih =>
    intro b s
    cases s with
    | nil => simp [lineRuleGo]
    | cons c cs =>
      simp only [lineRuleGo]
      cases b with
      | false =>
        rw [if_neg (by simp)]
        simp only [List.length_cons]
        have := ih (c == '\n') cs
        omega
      | true =>
        rw [if_pos rfl]
        cases hm : mh (c :: cs) with
        | none =>
          simp only [hm, List.length_cons]
          have := ih (c == '\n') cs
          omega
        | some k =>
          simp only [hm]
          by_cases hw : (((c :: cs).drop k).takeWhile pyIsSpace).isEmpty = true
          · rw [if_pos hw]
            simp only [List.length_cons]
            have := ih (c == '\n') cs
            omega
          · rw [if_neg hw]
            have h1 := ih ((((c :: cs).drop k).takeWhile pyIsSpace).getLastD ' ' == '\n')
              (((c :: cs).drop k).dropWhile pyIsSpace)
            have h2 := nvLengthDropWhileLe pyIsSpace ((c :: cs).drop k)
            have h3 : ((c :: cs).drop k).length ≤ (c :: cs).length := by
              rw [List.length_drop]; omega
            simp only [List.length_cons] at *
            omega

theorem collapseWs_length_le : ∀ (s : Str), (collapseWs s).length ≤ s.length := by
  intro s
  match s with
  | [] => simp [collapseWs]
  | [c] => by_cases h : pyIsSpace c <;> simp [collapseWs, h]
  | c :: d :: t =>
    have ih := collapseWs_length_le (d :: t)
    rw [collapseWs_cons2]
    by_cases h : (pyIsSpace c && pyIsSpace d) = true
    · rw [if_pos h]
      simp only [List.length_cons] at *
      omega
    · rw [if_neg h]
      simp only [List.length_cons] at *
      omega

theorem pyStripRight_length_le (s : Str) : (pyStripRight s).length ≤ s.length := by
  induction s with
  | nil => simp [pyStripRight]
  | cons c cs ih =>
    rw [pyStripRight_cons_eq]
    cases h : pyStripRight cs with
    | nil => by_cases hc : pyIsSpace c <;> simp [hc]
    | cons d t =>
      show (c :: d :: t).length ≤ (c :: cs).length
      rw [h] at ih
      simp only [List.length_cons] at *
      omega

theorem sew_length_le (s : Str) : (strip_extra_whitespace s).length ≤ s.length := by
  unfold strip_extra_whitespace pyStrip
  calc (pyStripRight ((collapseWs s).dropWhile pyIsSpace)).length
      ≤ ((collapseWs s).dropWhile pyIsSpace).length := pyStripRight_length_le _
    _ ≤ (collapseWs s).length := nvLengthDropWhileLe _ _
    _ ≤ s.length := collapseWs_length_le s

theorem hrLine_length_le (l : Str) : (hrLine l).length ≤ l.length := by
  unfold hrLine
  split <;> simp

theorem joinNL_map_length_le (f : Str → Str) (h : ∀ l, (f l).length ≤ l.length) :
    ∀ ls, (joinNL (ls.map f)).length ≤ (joinNL ls).length := by
  intro ls
  match ls with
  | [] => simp [joinNL]
  | [l] =>
    simp only [List.map_cons, List.map_nil, joinNL]
    exact h l
  | l :: l2 :: t =>
    have ih := joinNL_map_length_le f h (l2 :: t)
    simp only [List.map_cons, joinNL, List.length_append, List.length_cons] at *
    have := h l
    omega

theorem mdHr_length_le (s : Str) : (mdHr s).length ≤ s.length := by
  unfold mdHr
  have h := joinNL_map_length_le hrLine hrLine_length_le (splitOnNL s)
  rw [joinNL_splitOnNL] at h
  exact h

theorem mdEmphGo_length_le (m : Char) :
    ∀ fuel s, (mdEmphGo m fuel s).length ≤ s.length := by
  intro fuel
  induction fuel with
  | zero => intro s; exact Nat.le_refl _
  | succ fuel ih =>
    intro s
    cases s with
    | nil => simp [mdEmphGo]
    | cons c cs =>
      simp only [mdEmphGo]
      by_cases hc : (c == m) = true
      · rw [if_pos hc]
        set r := (List.takeWhile (fun x => x == m) (c :: cs)).length with hr
        set A := List.drop r (c :: cs) with hA
        set content := List.takeWhile (fun x => x != m) A with hcontent
        set B := List.dropWhile (fun x => x != m) A with hB
        have e1 : content.length + B.length = A.length := by
          rw [hcontent, hB, ← List.length_append, List.takeWhile_append_dropWhile]
        have e2 : A.length = (c :: cs).length - r := by rw [hA, List.length_drop]
        have e3 : r ≤ (c :: cs).length := by
          rw [hr]; exact nvLengthTakeWhileLe _ _
        by_cases hcon : content.isEmpty = true
        · rw [if_pos hcon]
        · rw [if_neg hcon]
          cases hBc : B with
          | nil => exact Nat.le_refl _
          | cons d w =>
            have e4 := ih (List.drop (min (List.takeWhile (fun x => x == m) (d :: w)).length 3) (d :: w))
            rw [List.length_drop] at e4
            rw [hBc] at e1
            simp only [List.length_append, List.length_replicate, List.length_cons] at *
            omega
      · rw [if_neg hc]
        simp only [List.length_cons]
        have := ih cs
        omega

theorem mdLinkGo_length_le : ∀ fuel s, (mdLinkGo fuel s).length ≤ s.length := by
  intro fuel
  induction fuel with
  | zero => intro s; exact Nat.le_refl _
  | succ fuel ih =>
    intro s
    cases s with
    | nil => simp [mdLinkGo]
    | cons c cs =>
      simp only [mdLinkGo]
      by_cases hc : (c == '[') = true
      · rw [if_pos hc]
        split
        · rename_i u hu
          split
          · rename_i w hw
            split
            · rename_i hemp
              simp only [List.length_cons]
              have := ih cs
              omega
            · rename_i hemp
              have e1 : (List.takeWhile (fun x => x != ']') cs).length + (List.dropWhile (fun x => x != ']') cs).length = cs.length := by
                rw [← List.length_append, List.takeWhile_append_dropWhile]
              have e2 : (List.takeWhile (fun x => x != ')') u).length + (List.dropWhile (fun x => x != ')') u).length = u.length := by
                rw [← List.length_append, List.takeWhile_append_dropWhile]
              rw [hu] at e1
              rw [hw] at e2
              have e3 := ih w
              simp only [List.length_append, List.length_cons] at *
              omega
          · simp only [List.length_cons]
            have := ih cs
            omega
        · simp only [List.length_cons]
          have := ih cs
          omega
      · rw [if_neg hc]
        simp only [List.length_cons]
        have := ih cs
        omega

theorem mdImageGo_length_le : ∀ fuel s, (mdImageGo fuel s).length ≤ s.length := by
  intro fuel
  induction fuel with
  | zero => intro s; exact Nat.le_refl _
  | succ fuel ih =>
    intro s
    match s with
    | [] => simp [mdImageGo]
    | [c] => simp [mdImageGo]
    | c :: d :: cs2 =>
      simp only [mdImageGo]
      by_cases hc : (c == '!' && d == '[') = true
      · rw [if_pos hc]
        split
        · rename_i rest1 hD
          split
          · rename_i e u
            by_cases he : (e == '(') = true
            · rw [if_pos he]
              split
              · rename_i w hW
                split
                · rename_i hemp
                  simp only [List.length_cons]
                  have := ih (d :: cs2)
                  simp only [List.length_cons] at this
                  omega
                · rename_i hemp
                  have e1 : (List.takeWhile (fun x => x != ']') cs2).length + (List.dropWhile (fun x => x != ']') cs2).length = cs2.length := by
                    rw [← List.length_append, List.takeWhile_append_dropWhile]
                  have e2 : (List.takeWhile (fun x => x != ')') u).length + (List.dropWhile (fun x => x != ')') u).length = u.length := by
                    rw [← List.length_append, List.takeWhile_append_dropWhile]
                  rw [hD] at e1
                  rw [hW] at e2
                  have e3 := ih w
                  simp only [List.length_append, List.length_cons] at *
                  omega
              · simp only [List.length_cons]
                have := ih (d :: cs2)
                simp only [List.length_cons] at this
                omega
            · rw [if_neg he]
              simp only [List.length_cons]
              have := ih (d :: cs2)
              simp only [List.length_cons] at this
              omega
          · simp only [List.length_cons]
            have := ih (d :: cs2)
            simp only [List.length_cons] at this
            omega
        · simp only [List.length_cons]
          have := ih (d :: cs2)
          simp only [List.length_cons] at this
          omega
      · rw [if_neg hc]
        simp only [List.length_cons]
        have := ih (d :: cs2)
        simp only [List.length_cons] at this
        omega

theorem mdCodeBlockGo_length_le : ∀ fuel s, (mdCodeBlockGo fuel s).length ≤ s.length := by
  intro fuel
  induction fuel with
  | zero => intro s; exact Nat.le_refl _
  | succ fuel ih =>
    intro s
    cases s with
    | nil => simp [mdCodeBlockGo]
    | cons c cs =>
      simp only [mdCodeBlockGo]
      by_cases hc : (c == tickChar) = true
      · rw [if_pos hc]
        set r := (List.takeWhile (fun x => x == tickChar) (c :: cs)).length with hr
        have e3 : r ≤ (c :: cs).length := by
          rw [hr]; exact nvLengthTakeWhileLe _ _
        by_cases h6 : 6 ≤ r
        · rw [if_pos h6]
          have := ih (List.drop 6 (c :: cs))
          rw [List.length_drop] at this
          omega
        · rw [if_neg h6]
          by_cases h3 : 3 ≤ r
          · rw [if_pos h3]
            set A := List.drop r (c :: cs) with hA
            set content := List.takeWhile (fun x => x != tickChar) A with hcontent
            set B := List.dropWhile (fun x => x != tickChar) A with hB
            have e1 : content.length + B.length = A.length := by
              rw [hcontent, hB, ← List.length_append, List.takeWhile_append_dropWhile]
            have e2 : A.length = (c :: cs).length - r := by rw [hA, List.length_drop]
            by_cases h32 : 3 ≤ (List.takeWhile (fun x => x == tickChar) B).length
            · rw [if_pos h32]
              have e4 := ih (List.drop 3 B)
              rw [List.length_drop] at e4
              have e5 : 3 ≤ B.length := by
                have := nvLengthTakeWhileLe (fun x => x == tickChar) B
                omega
              simp only [List.length_append, List.length_replicate, List.length_cons] at *
              omega
            · rw [if_neg h32]
              have e4 := ih B
              simp only [List.length_append, List.length_replicate, List.length_cons] at *
              omega
          · rw [if_neg h3]
            have e4 := ih (List.drop r (c :: cs))
            rw [List.length_drop] at e4
            simp only [List.length_append, List.length_replicate, List.length_cons] at *
            omega
      · rw [if_neg hc]
        simp only [List.length_cons]
        have := ih cs
        omega

theorem mdInlineCodeGo_length_le : ∀ fuel s, (mdInlineCodeGo fuel s).length ≤ s.length := by
  intro fuel
  induction fuel with
  | zero => intro s; exact Nat.le_refl _
  | succ fuel ih =>
    intro s
    cases s with
    | nil => simp [mdInlineCodeGo]
    | cons c cs =>
      simp only [mdInlineCodeGo]
      by_cases hc : (c == tickChar) = true
      · rw [if_pos hc]
        set r := (List.takeWhile (fun x => x == tickChar) (c :: cs)).length with hr
        set A := List.drop r (c :: cs) with hA
        set content := List.takeWhile (fun x => x != tickChar) A with hcontent
        set B := List.dropWhile (fun x => x != tickChar) A with hB
        have e1 : content.length + B.length = A.length := by
          rw [hcontent, hB, ← List.length_append, List.takeWhile_append_dropWhile]
        have e2 : A.length = (c :: cs).length - r := by rw [hA, List.length_drop]
        have e3 : r ≤ (c :: cs).length := by
          rw [hr]; exact nvLengthTakeWhileLe _ _
        cases hBc : B with
        | nil =>
          show (List.replicate r tickChar ++ content).length ≤ (c :: cs).length
          rw [hBc] at e1
          simp only [List.length_append, List.length_replicate, List.length_cons, List.length_nil] at *
          omega
        | cons d w =>
          show (if (d == tickChar) = true
              then List.replicate (r - 1) tickChar ++ content ++ mdInlineCodeGo fuel w
              else List.replicate r tickChar ++ content ++ mdInlineCodeGo fuel (d :: w)).length ≤
            (c :: cs).length
          by_cases hd : (d == tickChar) = true
          · rw [if_pos hd]
            have e4 := ih w
            rw [hBc] at e1
            simp only [List.length_append, List.length_replicate, List.length_cons] at *
            omega
          · rw [if_neg hd]
            have e4 := ih (d :: w)
            rw [hBc] at e1
            simp only [List.length_append, List.length_replicate, List.length_cons] at *
            omega
      · rw [if_neg hc]
        simp only [List.length_cons]
        have := ih cs
        omega

theorem stripUrlsGo_length_le : ∀ fuel s, (stripUrlsGo fuel s).length ≤ s.length := by
  intro fuel
  induction fuel with
  | zero => intro s; exact Nat.le_refl _
  | succ fuel ih =>
    intro s
    cases s with
    | nil => simp [stripUrlsGo]
    | cons c cs =>
      have hcons : (c :: stripUrlsGo fuel cs).length ≤ (c :: cs).length := by
        simp only [List.length_cons]
        have := ih cs
        omega
      have hbody : ∀ k : Nat,
          (stripUrlsGo fuel ((List.drop k (c :: cs)).dropWhile (fun x => !pyIsSpace x))).length ≤
            (c :: cs).length := by
        intro k
        have h1 := ih ((List.drop k (c :: cs)).dropWhile (fun x => !pyIsSpace x))
        have h2 := nvLengthDropWhileLe (fun x => !pyIsSpace x) (List.drop k (c :: cs))
        have h3 : (List.drop k (c :: cs)).length ≤ (c :: cs).length := by
          rw [List.length_drop]; omega
        omega
      simp only [stripUrlsGo]
      by_cases h1 : startsWithStr (c :: cs) (("https://").toList) = true
      · rw [if_pos h1, if_neg (by decide)]
        by_cases hb : ((List.drop 8 (c :: cs)).takeWhile (fun x => !pyIsSpace x)).isEmpty = true
        · rw [if_pos hb]; exact hcons
        · rw [if_neg hb]; exact hbody 8
      · rw [if_neg h1]
        by_cases h2 : startsWithStr (c :: cs) (("http://").toList) = true
        · rw [if_pos h2, if_neg (by decide)]
          by_cases hb : ((List.drop 7 (c :: cs)).takeWhile (fun x => !pyIsSpace x)).isEmpty = true
          · rw [if_pos hb]; exact hcons
          · rw [if_neg hb]; exact hbody 7
        · rw [if_neg h2, if_pos (by decide)]
          exact hcons

theorem tryTldLen_length_le (v t : Str) :
    ∀ k w rest, tryTldLen v t k = some (w, rest) → rest.length ≤ v.length := by
  intro k
  induction k with
  | zero => intro w rest h; simp [tryTldLen] at h
  | succ k ih =>
    intro w rest h
    simp only [tryTldLen] at h
    by_cases hk : k + 1 < 2
    · rw [if_pos hk] at h; simp at h
    · rw [if_neg hk] at h
      by_cases hb : (pyIsWord (t.getD k ' ') != wordAt v (k + 1)) = true
      · rw [if_pos hb] at h
        simp only [Option.some.injEq, Prod.mk.injEq] at h
        rw [← h.2, List.length_drop]
        omega
      · rw [if_neg hb] at h
        exact ih w rest h

theorem tryDotAt_length_le {u : Str} {j : Nat} {w : Bool} {rest : Str}
    (h : tryDotAt u j = some (w, rest)) : rest.length ≤ u.length := by
  unfold tryDotAt at h
  have h1 := tryTldLen_length_le (u.drop (j + 1))
    ((u.drop (j + 1)).takeWhile emailTldChar)
    ((u.drop (j + 1)).takeWhile emailTldChar).length w rest h
  rw [List.length_drop] at h1
  omega

theorem tryDomainGo_length_le {u : Str} :
    ∀ js w rest, tryDomainGo u js = some (w, rest) → rest.length ≤ u.length := by
  intro js
  induction js with
  | nil => intro w rest h; simp [tryDomainGo] at h
  | cons j js ih =>
    intro w rest h
    simp only [tryDomainGo] at h
    cases hd : tryDotAt u j with
    | some r =>
      rw [hd] at h
      simp only [Option.some.injEq] at h
      subst h
      exact tryDotAt_length_le hd
    | none =>
      rw [hd] at h
      exact ih w rest h

theorem tryEmail_length_le {prevW : Bool} {s : Str} {w : Bool} {rest : Str}
    (h : tryEmail prevW s = some (w, rest)) : rest.length ≤ s.length := by
  cases s with
  | nil => simp [tryEmail] at h
  | cons c cs =>
    have h' : (if (!(emailLocalChar c)) = true then (none : Option (Bool × Str))
        else if (prevW == pyIsWord c) = true then none
        else match (c :: cs).dropWhile emailLocalChar with
          | d :: u => if d == '@' then tryDomain u else none
          | [] => none) = some (w, rest) := h
    by_cases h1 : (!(emailLocalChar c)) = true
    · rw [if_pos h1] at h'; simp at h'
    · rw [if_neg h1] at h'
      by_cases h2 : (prevW == pyIsWord c) = true
      · rw [if_pos h2] at h'; simp at h'
      · rw [if_neg h2] at h'
        cases hd : (c :: cs).dropWhile emailLocalChar with
        | nil => rw [hd] at h'; simp at h'
        | cons d u =>
          rw [hd] at h'
          have h'' : (if (d == '@') = true then tryDomain u else none) = some (w, rest) := h'
          by_cases hat : (d == '@') = true
          · rw [if_pos hat] at h''
            have hrest : rest.length ≤ u.length := by
              unfold tryDomain at h''
              exact tryDomainGo_length_le _ w rest h''
            have hlen : (d :: u).length ≤ (c :: cs).length := by
              rw [← hd]; exact nvLengthDropWhileLe _ _
            simp only [List.length_cons] at *
            omega
          · rw [if_neg hat] at h''; simp at h''

theorem stripEmailGo_length_le : ∀ fuel b s, (stripEmailGo fuel b s).length ≤ s.length := by
  intro fuel
  induction fuel with
  | zero => intro b s; exact Nat.le_refl _
  | succ fuel ih =>
    intro b s
    cases s with
    | nil => simp [stripEmailGo]
    | cons c cs =>
      simp only [stripEmailGo]
      cases he : tryEmail b (c :: cs) with
      | some p =>
        cases p with
        | mk w rest =>
          simp only []
          have h1 := ih w rest
          have h2 := tryEmail_length_le he
          simp only [List.length_cons] at *
          omega
      | none =>
        simp only [List.length_cons]
        have := ih (pyIsWord c) cs
        omega

/-- Markup stripping never lengthens the text. -/
theorem strip_markdown_length_le (s : Str) : (strip_markdown s true).length ≤ s.length := by
  unfold strip_markdown
  simp only [Bool.not_true, Bool.false_eq_true, if_false]
  unfold mdHeading mdBold mdItalic mdLink mdImage mdCodeBlock mdInlineCode
    mdBlockquote mdListRule mdOrderedRule
  calc (strip_extra_whitespace _).length
      ≤ _ := sew_length_le _
    _ ≤ _ := mdHr_length_le _
    _ ≤ _ := lineRuleGo_length_le _ _ _ _
    _ ≤ _ := lineRuleGo_length_le _ _ _ _
    _ ≤ _ := lineRuleGo_length_le _ _ _ _
    _ ≤ _ := mdInlineCodeGo_length_le _ _
    _ ≤ _ := mdCodeBlockGo_length_le _ _
    _ ≤ _ := mdImageGo_length_le _ _
    _ ≤ _ := mdLinkGo_length_le _ _
    _ ≤ _ := mdEmphGo_length_le _ _ _
    _ ≤ _ := mdEmphGo_length_le _ _ _
    _ ≤ s.length := lineRuleGo_length_le _ _ _ _

/-- The cleaning preset never lengthens the text. -/
theorem extract_clean_text_length_le (s : Str) :
    (extract_clean_text s).length ≤ s.length := by
  unfold extract_clean_text
  rw [sel_sew]
  calc (strip_extra_whitespace _).length
      ≤ _ := sew_length_le _
    _ ≤ _ := List.length_filter_le _ _
    _ ≤ _ := List.length_filter_le _ _
    _ ≤ _ := List.length_filter_le _ _
    _ ≤ _ := stripEmailGo_length_le _ _ _
    _ ≤ _ := stripUrlsGo_length_le _ _
    _ ≤ _ := strip_markdown_length_le _
    _ ≤ s.length := stripHtmlGo_length_le _ _

/-! ## Claim C8: get_stats asymmetry and bound -/

/-- Claim C8: the statistics record satisfies cleanChars at most totalChars;
cleanChars is the length of the extract_clean_text output while totalChars is
the raw length; the three character-class counts run over the cleaned text;
the line and paragraph counts run over the raw input. -/
theorem c8_stats (text : Str) :
    (get_stats text).clean_chars ≤ (get_stats text).total_chars ∧
    (get_stats text).clean_chars = (extract_clean_text text).length ∧
    (get_stats text).total_chars = text.length ∧
    (get_stats text).chinese_chars = ((extract_clean_text text).filter isCJKChar).length ∧
    (get_stats text).english_chars = ((extract_clean_text text).filter Char.isAlpha).length ∧
    (get_stats text).numbers = ((extract_clean_text text).filter Char.isDigit).length ∧
    (get_stats text).lines = (splitOnNL text).length ∧
    (get_stats text).paragraphs =
      ((splitOn2NL text).filter (fun p => !(pyStrip p).isEmpty)).length := by
  simp only [get_stats]
  exact ⟨extract_clean_text_length_le text, trivial, trivial, trivial, trivial,
    trivial, trivial, trivial⟩

/-! ## Collapsed-whitespace kit, towards claims C9 and C4 -/

theorem nvAndTrue {a b : Bool} (h : (a && b) = true) : a = true ∧ b = true := by
  simp at h; exact h

theorem nvOrTrue {a b : Bool} (h : (a || b) = true) : a = true ∨ b = true := by
  simp at h
  rcases h with h | h
  · left; exact h
  · right; exact h


/-- Collapsed form: every whitespace character is a single space never
followed by further whitespace. -/
def wsCollapsed : Str → Bool
  | [] => true
  | [c] => !pyIsSpace c || c == ' '
  | c :: d :: t => (!pyIsSpace c || (c == ' ' && !pyIsSpace d)) && wsCollapsed (d :: t)

theorem wsCollapsed_cons2_eq (c d : Char) (t : Str) :
    wsCollapsed (c :: d :: t) =
      ((!pyIsSpace c || (c == ' ' && !pyIsSpace d)) && wsCollapsed (d :: t)) := rfl

/-- Head of a collapse result: the original head, with whitespace mapped to
a space. -/
theorem collapseWs_head : ∀ (cs : Str) (d : Char),
    ∃ t, collapseWs (d :: cs) = (if pyIsSpace d then ' ' else d) :: t := by
  intro cs
  induction cs with
  | nil =>
    intro d
    by_cases hd : pyIsSpace d
    · exact ⟨[], by simp [collapseWs, hd]⟩
    · exact ⟨[], by simp [collapseWs, hd]⟩
  | cons e cs ih =>
    intro d
    rw [collapseWs_cons2]
    by_cases hde : (pyIsSpace d && pyIsSpace e) = true
    · rw [if_pos hde]
      rcases ih e with ⟨t, ht⟩
      have hd : pyIsSpace d = true := (nvAndTrue hde).1
      have he : pyIsSpace e = true := (nvAndTrue hde).2
      refine ⟨t, ?_⟩
      rw [ht, hd, he]
      simp
    · rw [if_neg hde]
      exact ⟨collapseWs (e :: cs), rfl⟩

theorem wsCollapsed_collapseWs : ∀ (s : Str), wsCollapsed (collapseWs s) = true := by
  intro s
  match s with
  | [] => rfl
  | [c] =>
    by_cases hc : pyIsSpace c
    · simp [collapseWs, hc, wsCollapsed]
    · simp [collapseWs, hc, wsCollapsed]
  | c :: d :: t =>
    have ih := wsCollapsed_collapseWs (d :: t)
    rw [collapseWs_cons2]
    by_cases hcd : (pyIsSpace c && pyIsSpace d) = true
    · rw [if_pos hcd]
      exact ih
    · rw [if_neg hcd]
      rcases collapseWs_head t d with ⟨t2, ht2⟩
      rw [ht2]
      rw [ht2] at ih
      rw [wsCollapsed_cons2_eq]
      rw [ih]
      by_cases hc : pyIsSpace c
      · have hd : pyIsSpace d = false := by
          cases hpd : pyIsSpace d
          · rfl
          · exact absurd (by rw [hc, hpd]; rfl) hcd
        rw [if_pos hc]
        simp [hd]
      · rw [if_neg hc]
        simp [hc]

theorem collapseWs_eq_self : ∀ (s : Str), wsCollapsed s = true → collapseWs s = s := by
  intro s
  match s with
  | [] => intro h; rfl
  | [c] =>
    intro h
    by_cases hc : pyIsSpace c
    · have : c = ' ' := by
        simp only [wsCollapsed, hc] at h
        simpa using h
      subst this
      simp [collapseWs]
    · simp [collapseWs, hc]
  | c :: d :: t =>
    intro h
    rw [wsCollapsed_cons2_eq] at h
    rcases nvAndTrue h with ⟨h1, h2⟩
    have ih := collapseWs_eq_self (d :: t) h2
    rw [collapseWs_cons2]
    by_cases hc : pyIsSpace c
    · have hsp : c = ' ' ∧ pyIsSpace d = false := by
        simp only [hc] at h1
        simp at h1
        exact ⟨h1.1, h1.2⟩
      rw [if_neg (by rw [hsp.2]; simp), if_pos hc, ih, hsp.1]
    · rw [if_neg (by rw [Bool.and_eq_true]; intro hx; exact hc hx.1), if_neg hc, ih]

theorem wsCollapsed_tail {c : Char} {s : Str} (h : wsCollapsed (c :: s) = true) :
    wsCollapsed s = true := by
  cases s with
  | nil => rfl
  | cons d t =>
    rw [wsCollapsed_cons2_eq] at h
    exact (nvAndTrue h).2

theorem wsCollapsed_dropWhile {s : Str} (h : wsCollapsed s = true) :
    wsCollapsed (s.dropWhile pyIsSpace) = true := by
  induction s with
  | nil => exact h
  | cons c cs ih =>
    by_cases hc : pyIsSpace c
    · rw [List.dropWhile_cons, if_pos hc]
      exact ih (wsCollapsed_tail h)
    · rw [List.dropWhile_cons, if_neg hc]
      exact h

theorem wsCollapsed_pyStripRight {s : Str} (h : wsCollapsed s = true) :
    wsCollapsed (pyStripRight s) = true := by
  induction s with
  | nil => exact h
  | cons c cs ih =>
    rw [pyStripRight_cons_eq]
    cases hr : pyStripRight cs with
    | nil =>
      by_cases hc : pyIsSpace c
      · simp [hc, wsCollapsed]
      · simp [hc, wsCollapsed]
    | cons e t2 =>
      have hrest : wsCollapsed (e :: t2) = true := by
        rw [← hr]; exact ih (wsCollapsed_tail h)
      show wsCollapsed (c :: e :: t2) = true
      rw [wsCollapsed_cons2_eq, hrest]
      cases cs with
      | nil => simp [pyStripRight] at hr
      | cons d t =>
        rcases pyStripRight_cons_shape d t with h0 | ⟨t3, h3⟩
        · rw [h0] at hr; cases hr
        · rw [h3] at hr
          have hed : e = d := by
            have := hr
            injection this with he _
            exact he.symm
          subst hed
          rw [wsCollapsed_cons2_eq] at h
          rcases nvAndTrue h with ⟨h1, _⟩
          rw [h1]
          simp

theorem wsCollapsed_map {f : Char → Char}
    (hf : ∀ c, pyIsSpace (f c) = pyIsSpace c) (hsp : f ' ' = ' ') :
    ∀ {s : Str}, wsCollapsed s = true → wsCollapsed (s.map f) = true := by
  intro s
  match s with
  | [] => intro h; rfl
  | [c] =>
    intro h
    simp only [wsCollapsed] at h
    simp only [List.map_cons, List.map_nil, wsCollapsed, hf]
    rcases nvOrTrue h with h1 | h1
    · rw [h1]; simp
    · have : c = ' ' := by simpa using h1
      subst this
      rw [hsp]
      simp
  | c :: d :: t =>
    intro h
    rw [wsCollapsed_cons2_eq] at h
    rcases nvAndTrue h with ⟨h1, h2⟩
    have ih := wsCollapsed_map hf hsp h2
    simp only [List.map_cons] at ih ⊢
    rw [wsCollapsed_cons2_eq, ih, hf, hf]
    rcases nvOrTrue h1 with h3 | h3
    · rw [h3]; simp
    · rcases nvAndTrue h3 with ⟨h4, h5⟩
      have : c = ' ' := by simpa using h4
      subst this
      rw [hsp, h5]
      simp

theorem mem_collapseWs : ∀ (s : Str) (c : Char), c ∈ collapseWs s → c = ' ' ∨ c ∈ s := by
  intro s
  match s with
  | [] => intro c hc; simp [collapseWs] at hc
  | [d] =>
    intro c hc
    by_cases hd : pyIsSpace d
    · simp [collapseWs, hd] at hc
      left; exact hc
    · simp [collapseWs, hd] at hc
      right; simp [hc]
  | d :: e :: t =>
    intro c hc
    rw [collapseWs_cons2] at hc
    by_cases hde : (pyIsSpace d && pyIsSpace e) = true
    · rw [if_pos hde] at hc
      rcases mem_collapseWs (e :: t) c hc with h | h
      · left; exact h
      · right; exact List.mem_cons_of_mem d h
    · rw [if_neg hde] at hc
      rcases List.mem_cons.mp hc with h | h
      · by_cases hd : pyIsSpace d
        · rw [if_pos hd] at h; left; exact h
        · rw [if_neg hd] at h; right; simp [h]
      · rcases mem_collapseWs (e :: t) c h with h2 | h2
        · left; exact h2
        · right; exact List.mem_cons_of_mem d h2

/-- Head of a nonempty strip result refutes whitespace. -/
theorem pyStrip_head (s t : Str) (c : Char) (h : pyStrip s = c :: t) :
    pyIsSpace c = false := by
  unfold pyStrip at h
  cases hu : s.dropWhile pyIsSpace with
  | nil => rw [hu] at h; simp [pyStripRight] at h
  | cons d ds =>
    rw [hu] at h
    rcases pyStripRight_cons_shape d ds with h0 | ⟨t2, h2⟩
    · rw [h0] at h; cases h
    · rw [h2] at h
      injection h with he _
      subst he
      exact nvDropWhileHead hu

/-! ## Quote normalization kit -/

theorem nqChar_presWs (c : Char) : pyIsSpace (nqChar c) = pyIsSpace c := by
  unfold nqChar
  by_cases h1 : (c == '“' || c == '”' || c == '「' || c == '」' || c == '『' || c == '』') = true
  · rw [if_pos h1]
    rcases nvOrTrue h1 with h | h
    · rcases nvOrTrue h with h | h
      · rcases nvOrTrue h with h | h
        · rcases nvOrTrue h with h | h
          · rcases nvOrTrue h with h | h
            · have : c = '“' := by simpa using h
              subst this; decide
            · have : c = '”' := by simpa using h
              subst this; decide
          · have : c = '「' := by simpa using h
            subst this; decide
        · have : c = '」' := by simpa using h
          subst this; decide
      · have : c = '『' := by simpa using h
        subst this; decide
    · have : c = '』' := by simpa using h
      subst this; decide
  · rw [if_neg h1]
    by_cases h2 : (c == '‘' || c == '’') = true
    · rw [if_pos h2]
      rcases nvOrTrue h2 with h | h
      · have : c = '‘' := by simpa using h
        subst this; decide
      · have : c = '’' := by simpa using h
        subst this; decide
    · rw [if_neg h2]

theorem nqChar_space : nqChar ' ' = ' ' := by decide

theorem nqChar_idem (c : Char) : nqChar (nqChar c) = nqChar c := by
  unfold nqChar
  by_cases h1 : (c == '“' || c == '”' || c == '「' || c == '」' || c == '『' || c == '』') = true
  · rw [if_pos h1]; decide
  · rw [if_neg h1]
    by_cases h2 : (c == '‘' || c == '’') = true
    · rw [if_pos h2]; decide
    · rw [if_neg h2, if_neg h1, if_neg h2]

theorem nqChar_eq_newline {c : Char} (h : nqChar c = '\n') : c = '\n' := by
  unfold nqChar at h
  by_cases h1 : (c == '“' || c == '”' || c == '「' || c == '」' || c == '『' || c == '』') = true
  · rw [if_pos h1] at h; cases h
  · rw [if_neg h1] at h
    by_cases h2 : (c == '‘' || c == '’') = true
    · rw [if_pos h2] at h; cases h
    · rw [if_neg h2] at h; exact h

theorem nqChar_notCatC {c : Char} (h : pyIsCatC c = false) :
    pyIsCatC (nqChar c) = false := by
  unfold nqChar
  by_cases h1 : (c == '“' || c == '”' || c == '「' || c == '」' || c == '『' || c == '』') = true
  · rw [if_pos h1]; decide
  · rw [if_neg h1]
    by_cases h2 : (c == '‘' || c == '’') = true
    · rw [if_pos h2]; decide
    · rw [if_neg h2]; exact h

theorem normalize_quotes_idem (s : Str) :
    normalize_quotes (normalize_quotes s) = normalize_quotes s := by
  unfold normalize_quotes
  rw [List.map_map]
  apply List.map_congr_left
  intro c _
  exact nqChar_idem c

theorem dropWhile_map_presWs {f : Char → Char}
    (hf : ∀ c, pyIsSpace (f c) = pyIsSpace c) (s : Str) :
    (s.map f).dropWhile pyIsSpace = (s.dropWhile pyIsSpace).map f := by
  induction s with
  | nil => rfl
  | cons c cs ih =>
    simp only [List.map_cons, List.dropWhile_cons, hf]
    by_cases hc : pyIsSpace c
    · rw [if_pos hc, if_pos hc, ih]
    · rw [if_neg hc, if_neg hc, List.map_cons]

theorem pyStripRight_map {f : Char → Char}
    (hf : ∀ c, pyIsSpace (f c) = pyIsSpace c) (s : Str) :
    pyStripRight (s.map f) = (pyStripRight s).map f := by
  induction s with
  | nil => rfl
  | cons c cs ih =>
    simp only [List.map_cons]
    rw [pyStripRight_cons_eq, pyStripRight_cons_eq, ih]
    cases hr : pyStripRight cs with
    | nil =>
      simp only [List.map_nil, hf]
      by_cases hc : pyIsSpace c
      · rw [if_pos hc, if_pos hc]; rfl
      · rw [if_neg hc, if_neg hc]; rfl
    | cons e t => simp

theorem pyStrip_map {f : Char → Char}
    (hf : ∀ c, pyIsSpace (f c) = pyIsSpace c) (s : Str) :
    pyStrip (s.map f) = (pyStrip s).map f := by
  unfold pyStrip
  rw [dropWhile_map_presWs hf, pyStripRight_map hf]

/-! ## Structure of prepare_for_publishing -/

theorem zw_implies_catC {c : Char} (h : zeroWidthChar c = true) :
    pyIsCatC c = true := by
  unfold zeroWidthChar at h
  unfold pyIsCatC
  rcases nvOrTrue h with h1 | h1
  · rcases nvOrTrue h1 with h2 | h2
    · rcases nvOrTrue h2 with h3 | h3
      · simp only [beq_iff_eq] at h3
        simp [h3]
      · simp only [beq_iff_eq] at h3
        simp [h3]
    · simp only [beq_iff_eq] at h2
      simp [h2]
  · simp only [beq_iff_eq] at h1
    simp [h1]

/-- A category-C-free string passes the invisible-character pass
untouched. -/
theorem strip_invisible_eq_self {s : Str} (h : ∀ c ∈ s, pyIsCatC c = false) :
    strip_invisible_chars s = s := by
  unfold strip_invisible_chars
  have h1 : s.filter (fun c => !zeroWidthChar c) = s := by
    rw [List.filter_eq_self]
    intro c hc
    cases hz : zeroWidthChar c
    · simp
    · exact absurd (zw_implies_catC hz) (by rw [h c hc]; simp)
  rw [h1, List.filter_eq_self]
  intro c hc
  rw [h c hc]
  rfl

/-- Every character of the invisible-pass output is category-C free. -/
theorem strip_invisible_catC {s : Str} {c : Char}
    (hc : c ∈ strip_invisible_chars s) : pyIsCatC c = false := by
  exact (mem_strip_invisible hc).1

theorem splitOn2NL_no_nl {s : Str} (h : '\n' ∉ s) : splitOn2NL s = [s] := by
  induction s with
  | nil => rfl
  | cons c cs ih =>
    have hc : c ≠ '\n' := fun he => h (by simp [he])
    rw [splitOn2NL.eq_def]
    split
    · rename_i heq
      cases heq
    · rename_i cs2 heq
      injection heq with h1 _
      exact absurd h1 hc
    · rename_i d ds hne heq
      injection heq with h1 h2
      subst h1
      subst h2
      rw [ih (fun hm => h (List.mem_cons_of_mem c hm))]

/-- Core text of prepare_for_publishing: quote-normalized, whitespace
collapsed and stripped, invisible characters removed. -/
def pfpCore (x : Str) : Str :=
  normalize_quotes (strip_extra_whitespace (strip_invisible_chars x))

theorem pfpCore_no_newline (x : Str) : '\n' ∉ pfpCore x := by
  unfold pfpCore normalize_quotes
  intro hm
  rcases List.mem_map.mp hm with ⟨c, hc, hfc⟩
  have : c = '\n' := nqChar_eq_newline hfc
  subst this
  exact sew_no_newline _ hc

theorem pfpCore_strip (x : Str) : pyStrip (pfpCore x) = pfpCore x := by
  unfold pfpCore normalize_quotes
  rw [pyStrip_map nqChar_presWs]
  unfold strip_extra_whitespace
  rw [pyStrip_idem]

theorem pfpCore_collapsed (x : Str) : wsCollapsed (pfpCore x) = true := by
  unfold pfpCore normalize_quotes strip_extra_whitespace pyStrip
  exact wsCollapsed_map nqChar_presWs nqChar_space
    (wsCollapsed_pyStripRight (wsCollapsed_dropWhile (wsCollapsed_collapseWs _)))

theorem pfpCore_catC (x : Str) : ∀ c ∈ pfpCore x, pyIsCatC c = false := by
  intro c hc
  unfold pfpCore normalize_quotes at hc
  rcases List.mem_map.mp hc with ⟨c0, hc0, hfc⟩
  subst hfc
  apply nqChar_notCatC
  unfold strip_extra_whitespace pyStrip at hc0
  rcases mem_collapseWs _ c0 (mem_dropWhile (mem_pyStripRight hc0)) with h | h
  · subst h; decide
  · exact strip_invisible_catC h

theorem pfpCore_idem_nq (x : Str) : normalize_quotes (pfpCore x) = pfpCore x := by
  unfold pfpCore
  exact normalize_quotes_idem _

/-- Closed form of prepare_for_publishing: because the whitespace collapse
eats every newline before the double-newline split, the output is empty or
exactly the indentation marker followed by the single collapsed
quote-normalized paragraph. -/
theorem pfp_closed_form (x : Str) :
    prepare_for_publishing x =
      if (pfpCore x).isEmpty then [] else indentMarker ++ pfpCore x := by
  have hdef : normalize_quotes (strip_extra_whitespace (strip_invisible_chars x)) = pfpCore x := rfl
  simp only [prepare_for_publishing, hdef]
  rw [splitOn2NL_no_nl (pfpCore_no_newline x)]
  rw [List.filterMap_cons]
  simp only [List.filterMap_nil, pfpCore_strip]
  cases hform : pfpCore x with
  | nil => rfl
  | cons c t =>
    have hc : pyIsSpace c = false := by
      apply pyStrip_head (pfpCore x) t c
      rw [pfpCore_strip, hform]
    have htake : ¬ (c :: t).take 2 = indentMarker := by
      intro habs
      cases t with
      | nil => cases habs
      | cons d t2 =>
        have h2 : [c, d] = indentMarker := habs
        have hceq : c = '　' := by
          have h3 := congrArg (fun l => l.headD ' ') h2
          simpa using h3
        rw [hceq] at hc
        exact absurd hc (by decide)
    simp only [List.isEmpty_cons, Bool.false_eq_true, if_false, htake]
    rfl

/-! ## Claim C9: prepare_for_publishing output shape -/

/-- Claim C9: because whitespace collapsing eats every newline (and the
full-width indentation character) before the double-newline split, the split
yields a single paragraph, so the output is empty or exactly the indentation
marker followed by the collapsed quote-normalized text, and it contains no
newline. -/
theorem c9_single_paragraph (x : Str) :
    (prepare_for_publishing x =
      if (pfpCore x).isEmpty then [] else indentMarker ++ pfpCore x) ∧
    '\n' ∉ prepare_for_publishing x := by
  refine ⟨pfp_closed_form x, ?_⟩
  rw [pfp_closed_form x]
  by_cases h : (pfpCore x).isEmpty = true
  · rw [if_pos h]; simp
  · rw [if_neg h]
    intro hm
    rcases List.mem_append.mp hm with h1 | h1
    · simp [indentMarker] at h1
    · exact pfpCore_no_newline x h1

/-! ## Claim C4: prepare_for_publishing indentation idempotence -/

/-- Rerunning the core cleaning on an indented single-paragraph output gives
back the paragraph itself. -/
theorem pfpCore_of_marked (x : Str) (c0 : Char) (t0 : Str)
    (hform : pfpCore x = c0 :: t0) :
    pfpCore (indentMarker ++ pfpCore x) = pfpCore x := by
  have hhead : pyIsSpace c0 = false := by
    apply pyStrip_head (pfpCore x) t0 c0
    rw [pfpCore_strip, hform]
  have hsic : strip_invisible_chars (indentMarker ++ pfpCore x) =
      indentMarker ++ pfpCore x := by
    apply strip_invisible_eq_self
    intro c hc
    rcases List.mem_append.mp hc with h1 | h1
    · have : c = '　' := by simpa [indentMarker] using h1
      subst this; decide
    · exact pfpCore_catC x c h1
  have hcoll : collapseWs (indentMarker ++ pfpCore x) = ' ' :: pfpCore x := by
    rw [hform]
    show collapseWs ('　' :: '　' :: c0 :: t0) = ' ' :: c0 :: t0
    rw [collapseWs_cons2, if_pos (by decide), collapseWs_cons2,
      if_neg (by rw [hhead]; simp), if_pos (by decide)]
    have hca : wsCollapsed (c0 :: t0) = true := by
      rw [← hform]; exact pfpCore_collapsed x
    rw [collapseWs_eq_self _ hca]
  have hdw : (pfpCore x).dropWhile pyIsSpace = pfpCore x := by
    rw [hform, List.dropWhile_cons, if_neg (by rw [hhead]; simp)]
  have hpsr : pyStripRight (pfpCore x) = pfpCore x := by
    have h1 := pfpCore_strip x
    unfold pyStrip at h1
    rw [hdw] at h1
    exact h1
  have hsew : strip_extra_whitespace (indentMarker ++ pfpCore x) = pfpCore x := by
    unfold strip_extra_whitespace pyStrip
    rw [hcoll, List.dropWhile_cons, if_pos (by decide), hdw, hpsr]
  show normalize_quotes (strip_extra_whitespace (strip_invisible_chars
    (indentMarker ++ pfpCore x))) = pfpCore x
  rw [hsic, hsew]
  exact pfpCore_idem_nq x

/-- Claim C4: prepare_for_publishing is idempotent, so a second run keeps
the same paragraph indentation and in particular never yields a doubled
indentation marker. -/
theorem c4_publish_idem (x : Str) :
    prepare_for_publishing (prepare_for_publishing x) = prepare_for_publishing x ∧
    (prepare_for_publishing (prepare_for_publishing x)).take 4 ≠
      List.replicate 4 '　' := by
  have hmain : prepare_for_publishing (prepare_for_publishing x) =
      prepare_for_publishing x := by
    rw [pfp_closed_form x]
    cases hform : pfpCore x with
    | nil =>
      simp only [List.isEmpty_nil, if_true]
      rfl
    | cons c0 t0 =>
      simp only [List.isEmpty_cons, Bool.false_eq_true, if_false]
      rw [pfp_closed_form (indentMarker ++ (c0 :: t0))]
      have hcore := pfpCore_of_marked x c0 t0 hform
      rw [hform] at hcore
      rw [hcore]
      simp only [List.isEmpty_cons, Bool.false_eq_true, if_false]
  refine ⟨hmain, ?_⟩
  rw [hmain, pfp_closed_form x]
  cases hform : pfpCore x with
  | nil => simp
  | cons c0 t0 =>
    simp only [List.isEmpty_cons, Bool.false_eq_true, if_false]
    intro habs
    have hc0 : pyIsSpace c0 = false := by
      apply pyStrip_head (pfpCore x) t0 c0
      rw [pfpCore_strip, hform]
    have h4 : (indentMarker ++ c0 :: t0).take 4 = '　' :: '　' :: c0 :: t0.take 1 := rfl
    rw [h4] at habs
    have h5 := congrArg (fun l => l.getD 2 ' ') habs
    simp [List.getD] at h5
    rw [h5] at hc0
    exact absurd hc0 (by decide)

/-! ## Identity lemmas of the cleaning stages, towards claim C3 -/

theorem stripHtmlGo_id {s : Str} (h : '<' ∉ s) : ∀ fuel, stripHtmlGo fuel s = s := by
  induction s with
  | nil => intro fuel; cases fuel <;> rfl
  | cons c cs ih =>
    intro fuel
    cases fuel with
    | zero => rfl
    | succ fuel =>
      simp only [stripHtmlGo]
      rw [if_neg (by simp; intro he; exact h (by simp [he]))]
      rw [ih (fun hm => h (List.mem_cons_of_mem c hm)) fuel]

theorem strip_html_tags_id {s : Str} (h : '<' ∉ s) : strip_html_tags s = s :=
  stripHtmlGo_id h _

theorem lineRuleGo_false_id (mh : Str → Option Nat) {s : Str} (h : '\n' ∉ s) :
    ∀ fuel, lineRuleGo mh fuel false s = s := by
  induction s with
  | nil => intro fuel; cases fuel <;> rfl
  | cons c cs ih =>
    intro fuel
    cases fuel with
    | zero => rfl
    | succ fuel =>
      simp only [lineRuleGo]
      rw [if_neg (by simp)]
      have hc : (c == '\n') = false := by
        simp only [beq_eq_false_iff_ne, ne_eq]
        intro he; exact h (by simp [he])
      rw [hc, ih (fun hm => h (List.mem_cons_of_mem c hm)) fuel]

/-- Firing condition of a line-start rule at the start of the string. -/
def lineFires (mh : Str → Option Nat) (s : Str) : Bool :=
  match mh s with
  | some k => !((s.drop k).takeWhile pyIsSpace).isEmpty
  | none => false

theorem lineRuleGo_true_id (mh : Str → Option Nat) {s : Str} (h : '\n' ∉ s)
    (hf : lineFires mh s = false) : ∀ fuel, lineRuleGo mh fuel true s = s := by
  cases s with
  | nil => intro fuel; cases fuel <;> rfl
  | cons c cs =>
    intro fuel
    cases fuel with
    | zero => rfl
    | succ fuel =>
      simp only [lineRuleGo]
      rw [if_pos trivial]
      have hc : (c == '\n') = false := by
        simp only [beq_eq_false_iff_ne, ne_eq]
        intro he; exact h (by simp [he])
      unfold lineFires at hf
      cases hm : mh (c :: cs) with
      | none =>
        simp only [hm]
        rw [hc, lineRuleGo_false_id mh (fun hm2 => h (List.mem_cons_of_mem c hm2)) fuel]
      | some k =>
        rw [hm] at hf
        simp only [hm]
        have hw : (((c :: cs).drop k).takeWhile pyIsSpace).isEmpty = true := by
          simpa using hf
        rw [if_pos hw, hc,
          lineRuleGo_false_id mh (fun hm2 => h (List.mem_cons_of_mem c hm2)) fuel]

theorem mdEmphGo_id {m : Char} {s : Str} (h : m ∉ s) :
    ∀ fuel, mdEmphGo m fuel s = s := by
  induction s with
  | nil => intro fuel; cases fuel <;> rfl
  | cons c cs ih =>
    intro fuel
    cases fuel with
    | zero => rfl
    | succ fuel =>
      simp only [mdEmphGo]
      rw [if_neg (by simp; intro he; exact h (by simp [he]))]
      rw [ih (fun hm => h (List.mem_cons_of_mem c hm)) fuel]

theorem mdLinkGo_id {s : Str} (h : '[' ∉ s) : ∀ fuel, mdLinkGo fuel s = s := by
  induction s with
  | nil => intro fuel; cases fuel <;> rfl
  | cons c cs ih =>
    intro fuel
    cases fuel with
    | zero => rfl
    | succ fuel =>
      simp only [mdLinkGo]
      rw [if_neg (by simp; intro he; exact h (by simp [he]))]
      rw [ih (fun hm => h (List.mem_cons_of_mem c hm)) fuel]

theorem mdImageGo_id {s : Str} (h : '[' ∉ s) : ∀ fuel, mdImageGo fuel s = s := by
  induction s with
  | nil => intro fuel; cases fuel <;> rfl
  | cons c cs ih =>
    intro fuel
    cases fuel with
    | zero => rfl
    | succ fuel =>
      cases cs with
      | nil => rfl
      | cons d cs2 =>
        simp only [mdImageGo]
        have hdne : (d == '[') = false := by
          simp only [beq_eq_false_iff_ne, ne_eq]
          intro he; exact h (by simp [he])
        rw [show (c == '!' && d == '[') = false by rw [hdne]; simp]
        rw [if_neg (by simp)]
        rw [ih (fun hm => h (List.mem_cons_of_mem c hm)) fuel]

theorem mdCodeBlockGo_id {s : Str} (h : tickChar ∉ s) :
    ∀ fuel, mdCodeBlockGo fuel s = s := by
  induction s with
  | nil => intro fuel; cases fuel <;> rfl
  | cons c cs ih =>
    intro fuel
    cases fuel with
    | zero => rfl
    | succ fuel =>
      simp only [mdCodeBlockGo]
      rw [if_neg (by simp; intro he; exact h (by simp [he]))]
      rw [ih (fun hm => h (List.mem_cons_of_mem c hm)) fuel]

theorem mdInlineCodeGo_id {s : Str} (h : tickChar ∉ s) :
    ∀ fuel, mdInlineCodeGo fuel s = s := by
  induction s with
  | nil => intro fuel; cases fuel <;> rfl
  | cons c cs ih =>
    intro fuel
    cases fuel with
    | zero => rfl
    | succ fuel =>
      simp only [mdInlineCodeGo]
      rw [if_neg (by simp; intro he; exact h (by simp [he]))]
      rw [ih (fun hm => h (List.mem_cons_of_mem c hm)) fuel]

theorem headingHead_none {s : Str} (h : '#' ∉ s) : headingHead s = none := by
  unfold headingHead
  have ht : s.takeWhile (fun x => x == '#') = [] := by
    cases s with
    | nil => rfl
    | cons c cs =>
      rw [List.takeWhile_cons, if_neg (by simp; intro he; exact h (by simp [he]))]
  rw [ht]
  simp

theorem bqHead_none {s : Str} (h : ¬ s.headD ' ' = '>') : bqHead s = none := by
  unfold bqHead
  cases s with
  | nil => simp
  | cons c cs =>
    rw [if_neg]
    intro habs
    apply h
    simpa using habs

theorem listHead_none {s : Str} (h1 : '*' ∉ s) (h2 : ¬ s.headD ' ' = '-')
    (h3 : ¬ s.headD ' ' = '+') : listHead s = none := by
  cases s with
  | nil => rfl
  | cons c cs =>
    show (if c == '*' || c == '-' || c == '+' then some 1 else none) = none
    rw [if_neg]
    simp only [Bool.or_eq_true, not_or]
    refine ⟨⟨?_, ?_⟩, ?_⟩
    · simp only [beq_eq_false_iff_ne, ne_eq, Bool.not_eq_true]
      intro he; exact h1 (by simp [he])
    · simp only [beq_eq_false_iff_ne, ne_eq, Bool.not_eq_true]
      intro he; exact h2 (by simp [he])
    · simp only [beq_eq_false_iff_ne, ne_eq, Bool.not_eq_true]
      intro he; exact h3 (by simp [he])

theorem lineFires_of_none {mh : Str → Option Nat} {s : Str} (h : mh s = none) :
    lineFires mh s = false := by
  unfold lineFires
  rw [h]

theorem mdHr_id {s : Str} (hnl : '\n' ∉ s) (h1 : '*' ∉ s) (h2 : '_' ∉ s)
    (h3 : ¬ s.headD ' ' = '-') : mdHr s = s := by
  unfold mdHr
  rw [splitOnNL_no_nl hnl]
  have hline : hrLine s = s := by
    unfold hrLine
    cases s with
    | nil => simp
    | cons c cs =>
      rw [if_neg]
      rintro ⟨hlen, hall⟩
      have hc := List.all_eq_true.mp hall c (by simp)
      rcases nvOrTrue hc with hq | hq
      · rcases nvOrTrue hq with hq2 | hq2
        · exact h1 (by simp [show c = '*' by simpa using hq2])
        · exact h3 (by simp [show c = '-' by simpa using hq2])
      · exact h2 (by simp [show c = '_' by simpa using hq])
  simp [hline, joinNL]

theorem containsSub_cons_false {c : Char} {cs pat : Str}
    (h : containsSub (c :: cs) pat = false) :
    startsWithStr (c :: cs) pat = false ∧ containsSub cs pat = false := by
  have h' : (startsWithStr (c :: cs) pat || containsSub cs pat) = false := h
  constructor
  · cases hq : startsWithStr (c :: cs) pat
    · rfl
    · rw [hq] at h'; simp at h'
  · cases hq : containsSub cs pat
    · rfl
    · rw [hq] at h'; simp at h'

theorem stripUrlsGo_id {s : Str}
    (h1 : containsSub s (("http://").toList) = false)
    (h2 : containsSub s (("https://").toList) = false) :
    ∀ fuel, stripUrlsGo fuel s = s := by
  induction s with
  | nil => intro fuel; cases fuel <;> rfl
  | cons c cs ih =>
    intro fuel
    cases fuel with
    | zero => rfl
    | succ fuel =>
      have hp1 := containsSub_cons_false h1
      have hp2 := containsSub_cons_false h2
      have q1 : startsWithStr (c :: cs) (['h', 't', 't', 'p', ':', '/', '/']) = false := hp1.1
      have q2 : startsWithStr (c :: cs) (['h', 't', 't', 'p', 's', ':', '/', '/']) = false := hp2.1
      have hstep : stripUrlsGo (fuel + 1) (c :: cs) = c :: stripUrlsGo fuel cs := by
        simp [stripUrlsGo, q1, q2]
      rw [hstep, ih hp1.2 hp2.2 fuel]

theorem strip_urls_id {s : Str}
    (h1 : containsSub s (("http://").toList) = false)
    (h2 : containsSub s (("https://").toList) = false) :
    strip_urls s = s := stripUrlsGo_id h1 h2 _

theorem tryEmail_none {s : Str} (h : '@' ∉ s) (b : Bool) : tryEmail b s = none := by
  cases s with
  | nil => rfl
  | cons c cs =>
    show (if (!(emailLocalChar c)) = true then (none : Option (Bool × Str))
      else if (b == pyIsWord c) = true then none
      else match (c :: cs).dropWhile emailLocalChar with
        | d :: u => if d == '@' then tryDomain u else none
        | [] => none) = none
    by_cases h1 : (!(emailLocalChar c)) = true
    · rw [if_pos h1]
    · rw [if_neg h1]
      by_cases h2 : (b == pyIsWord c) = true
      · rw [if_pos h2]
      · rw [if_neg h2]
        cases hd : (c :: cs).dropWhile emailLocalChar with
        | nil => rfl
        | cons d u =>
          have hdne : (d == '@') = false := by
            simp only [beq_eq_false_iff_ne, ne_eq]
            intro he
            subst he
            exact h (mem_dropWhile (by rw [hd]; simp))
          show (if (d == '@') = true then tryDomain u else none) = none
          rw [hdne]
          simp

theorem stripEmailGo_id {s : Str} (h : '@' ∉ s) :
    ∀ fuel b, stripEmailGo fuel b s = s := by
  induction s with
  | nil => intro fuel b; cases fuel <;> rfl
  | cons c cs ih =>
    intro fuel b
    cases fuel with
    | zero => rfl
    | succ fuel =>
      simp only [stripEmailGo]
      simp only [tryEmail_none h]
      rw [ih (fun hm => h (List.mem_cons_of_mem c hm)) fuel (pyIsWord c)]

theorem strip_email_id {s : Str} (h : '@' ∉ s) : strip_email s = s :=
  stripEmailGo_id h _ false

theorem strip_emoji_id {s : Str} (h : ∀ c ∈ s, emojiChar c = false) :
    strip_emoji s = s := by
  unfold strip_emoji
  rw [List.filter_eq_self]
  intro c hc
  rw [h c hc]
  rfl

theorem strip_markdown_id {y : Str} (hnl : '\n' ∉ y)
    (hsew : strip_extra_whitespace y = y)
    (hH : '#' ∉ y) (hS : '*' ∉ y) (hU : '_' ∉ y) (hB : '[' ∉ y)
    (hT : tickChar ∉ y) (hbq : ¬ y.headD ' ' = '>')
    (hda : ¬ y.headD ' ' = '-') (hpl : ¬ y.headD ' ' = '+')
    (hol : olHead y = none) :
    strip_markdown y true = y := by
  unfold strip_markdown
  rw [if_neg (by simp)]
  unfold mdHeading mdBold mdItalic mdLink mdImage mdCodeBlock mdInlineCode
    mdBlockquote mdListRule mdOrderedRule
  rw [lineRuleGo_true_id headingHead hnl (lineFires_of_none (headingHead_none hH))]
  rw [mdEmphGo_id hS]
  rw [mdEmphGo_id hU]
  rw [mdLinkGo_id hB]
  rw [mdImageGo_id hB]
  rw [mdCodeBlockGo_id hT]
  rw [mdInlineCodeGo_id hT]
  rw [lineRuleGo_true_id bqHead hnl (lineFires_of_none (bqHead_none hbq))]
  rw [lineRuleGo_true_id listHead hnl (lineFires_of_none (listHead_none hS hda hpl))]
  rw [lineRuleGo_true_id olHead hnl (lineFires_of_none hol)]
  rw [mdHr_id hnl hS hU hda]
  exact hsew

/-! ## Structure of extract_clean_text outputs -/

/-- Blank-line removal is a no-op after whitespace collapsing, so the
cleaning preset ends in strip_extra_whitespace form. -/
theorem ecct_eq_sew (x : Str) :
    extract_clean_text x = strip_extra_whitespace (strip_invisible_chars
      (strip_emoji (strip_email (strip_urls (strip_markdown (strip_html_tags x) true))))) := by
  unfold extract_clean_text
  rw [sel_sew]

theorem sew_idem (s : Str) :
    strip_extra_whitespace (strip_extra_whitespace s) = strip_extra_whitespace s := by
  have h1 : collapseWs (strip_extra_whitespace s) = strip_extra_whitespace s := by
    apply collapseWs_eq_self
    unfold strip_extra_whitespace pyStrip
    exact wsCollapsed_pyStripRight (wsCollapsed_dropWhile (wsCollapsed_collapseWs s))
  show pyStrip (collapseWs (strip_extra_whitespace s)) = strip_extra_whitespace s
  rw [h1]
  unfold strip_extra_whitespace
  exact pyStrip_idem _

theorem mem_sew {s : Str} {c : Char} (h : c ∈ strip_extra_whitespace s) :
    c = ' ' ∨ c ∈ s := by
  unfold strip_extra_whitespace pyStrip at h
  exact mem_collapseWs s c (mem_dropWhile (mem_pyStripRight h))

theorem sel_id_of {y : Str} (hnl : '\n' ∉ y) (hst : pyStrip y = y) :
    strip_empty_lines y = y := by
  rw [sel_no_nl hnl, hst]
  by_cases hy : y.isEmpty = true
  · rw [if_pos hy]
    exact (by simpa using hy : y = []).symm
  · rw [if_neg hy]

theorem ecct_strip_fix (x : Str) :
    pyStrip (extract_clean_text x) = extract_clean_text x := by
  rw [ecct_eq_sew]
  unfold strip_extra_whitespace
  exact pyStrip_idem _

theorem ecct_no_newline (x : Str) : '\n' ∉ extract_clean_text x := by
  rw [ecct_eq_sew]
  exact sew_no_newline _

theorem ecct_sew_fix (x : Str) :
    strip_extra_whitespace (extract_clean_text x) = extract_clean_text x := by
  rw [ecct_eq_sew]
  exact sew_idem _

theorem ecct_emoji_free (x : Str) :
    ∀ c ∈ extract_clean_text x, emojiChar c = false := by
  intro c hc
  rw [ecct_eq_sew] at hc
  rcases mem_sew hc with h | h
  · subst h; decide
  · unfold strip_invisible_chars at h
    have h2 := (List.mem_filter.mp h).1
    have h3 := (List.mem_filter.mp h2).1
    unfold strip_emoji at h3
    have h4 := (List.mem_filter.mp h3).2
    simpa using h4

theorem ecct_catC_free (x : Str) :
    ∀ c ∈ extract_clean_text x, pyIsCatC c = false := by
  intro c hc
  rw [ecct_eq_sew] at hc
  rcases mem_sew hc with h | h
  · subst h; decide
  · exact strip_invisible_catC h

/-! ## Claim C3: idempotence of extract_clean_text -/

/-- Inertness of a cleaned output, the hypothesis of the amended claim C3:
no character or substring remains that could re-fire a pipeline stage on a
second pass. -/
def EcctInert (y : Str) : Prop :=
  '<' ∉ y ∧ '#' ∉ y ∧ '*' ∉ y ∧ '_' ∉ y ∧ '[' ∉ y ∧ tickChar ∉ y ∧ '@' ∉ y ∧
  ¬ y.headD ' ' = '>' ∧ ¬ y.headD ' ' = '-' ∧ ¬ y.headD ' ' = '+' ∧
  olHead y = none ∧
  containsSub y (("http://").toList) = false ∧
  containsSub y (("https://").toList) = false

instance (y : Str) : Decidable (EcctInert y) := by
  unfold EcctInert
  infer_instance

/-- Claim C3 fails on the code: cleaning a tag whose angle brackets are
separated by a newline gives a single-line string that the second pass
deletes as an HTML tag. -/
theorem c3_counterexample :
    extract_clean_text (("<a\nb>").toList) = ("<a b>").toList ∧
    extract_clean_text (extract_clean_text (("<a\nb>").toList)) ≠
      extract_clean_text (("<a\nb>").toList) := by
  constructor
  · rfl
  · decide

/-- Claim C3 (amended): extract_clean_text is idempotent on every input
whose cleaned output is inert: free of the angle-bracket, heading, emphasis,
bracket, backtick and at-sign characters, not starting with a blockquote,
list or ordered-list mark, and containing no URL scheme substring. -/
theorem c3_amended (x : Str) (h : EcctInert (extract_clean_text x)) :
    extract_clean_text (extract_clean_text x) = extract_clean_text x := by
  obtain ⟨h1, h2, h3, h4, h5, h6, h7, h8, h9, h10, h11, h12, h13⟩ := h
  have hnl := ecct_no_newline x
  have hsew := ecct_sew_fix x
  have hstrip := ecct_strip_fix x
  show strip_empty_lines (strip_extra_whitespace (strip_invisible_chars
    (strip_emoji (strip_email (strip_urls (strip_markdown
      (strip_html_tags (extract_clean_text x)) true)))))) = extract_clean_text x
  rw [strip_html_tags_id h1]
  rw [strip_markdown_id hnl hsew h2 h3 h4 h5 h6 h8 h9 h10 h11]
  rw [strip_urls_id h12 h13]
  rw [strip_email_id h7]
  rw [strip_emoji_id (ecct_emoji_free x)]
  rw [strip_invisible_eq_self (ecct_catC_free x)]
  rw [hsew]
  exact sel_id_of hnl hstrip

/-- Witness of the amended claim C3 at a concrete inert input. -/
theorem c3_amended_witness :
    extract_clean_text (extract_clean_text (("hello world").toList)) =
      extract_clean_text (("hello world").toList) :=
  c3_amended (("hello world").toList) (by decide)

end NovelPub